import Mathlib

/-! Route cipher and Gronsfeld cipher: a shallow embedding.

Part I embeds `src/2/RouteCipher.cpp` (class `RouteCipher`), part II embeds
`src/modAlphaCipher.cpp` (class `modAlphaCipher`).

Conventions.
* A `std::wstring` is a `List Nat` of code points (`wchar_t` values); a
  `std::string` is a `List Nat` of bytes.
* A C++ `int` is an `Int`; a loop counter that starts at `0` and only grows is
  the `Nat` produced by `List.range`. String lengths are taken to fit in `int`.
* A function that throws `CipherError` / `cipher_error` returns `none`.
-/

/-! ## Definitions: `RouteCipher` (`src/2/RouteCipher.cpp`) -/

namespace Route

/-- The class `RouteCipher`: its only data member is `int Columns`. -/
structure RouteCipher where
  Columns : Int
deriving DecidableEq, Repr

/-- The method `RouteCipher::ValidateKey`: throws when `Key <= 0` or `Key > 50`. -/
def ValidateKey (Key : Int) : Option Unit :=
  if Key ≤ 0 then none
  else if Key > 50 then none
  else some ()

/-- The constructor `RouteCipher::RouteCipher(int Key)`. -/
def RouteCipher.new (Key : Int) : Option RouteCipher :=
  match ValidateKey Key with
  | none => none
  | some _ => some { Columns := Key }

/-- The method `RouteCipher::GetColumns`. -/
def RouteCipher.GetColumns (c : RouteCipher) : Int := c.Columns

/-- The method `RouteCipher::ValidateText`: throws when the text is empty. -/
def ValidateText (Text : List Nat) : Option Unit :=
  if Text.isEmpty then none else some ()

/-- The method `RouteCipher::CleanText`: the loop appends every character that is none of
`L' '` (32), `L'\t'` (9), `L'\n'` (10), `L'\r'` (13). -/
def CleanText (Text : List Nat) : List Nat :=
  Text.foldl
    (fun Result c => if c ≠ 32 ∧ c ≠ 9 ∧ c ≠ 10 ∧ c ≠ 13 then Result ++ [c] else Result) []

/-- The body of the loop of `RouteCipher::ToUpperCase` on one character:
`a`..`z` (97..122), `а`..`я` (0x430..0x44F), `ё` (0x451) to `Ё` (0x401). -/
def upperChar (c : Nat) : Nat :=
  if c ≥ 97 ∧ c ≤ 122 then c - 97 + 65
  else if c ≥ 0x430 ∧ c ≤ 0x44F then c - 0x430 + 0x410
  else if c = 0x451 then 0x401
  else c

/-- The method `RouteCipher::ToUpperCase`: its loop updates every character in place. -/
def ToUpperCase (Text : List Nat) : List Nat := Text.map upperChar

/-- The method `RouteCipher::PrepareText`. -/
def PrepareText (Text : List Nat) : Option (List Nat) :=
  let Cleaned := CleanText Text
  if Cleaned.isEmpty then none else some (ToUpperCase Cleaned)

/-- The declaration `std::vector<std::vector<wchar_t>> Table(Rows, std::vector<wchar_t>(Columns))`:
`Rows` rows of `Columns` value-initialized cells. -/
def newTable (Rows Columns : Nat) : List (List Nat) :=
  List.replicate Rows (List.replicate Columns 0)

/-- The assignment `Table[i][j] = v`. -/
def setCell (Table : List (List Nat)) (i j v : Nat) : List (List Nat) :=
  Table.set i ((Table.getD i []).set j v)

/-- The read `Table[i][j]`. -/
def getCell (Table : List (List Nat)) (i j : Nat) : Nat :=
  (Table.getD i []).getD j 0

/-- The body shared by the filling loops of `Encrypt` and `Decrypt`, on the
state `(Table, index)`:
`if (index < TextLength) Table[i][j] = PreparedText[index++]; else Table[i][j] = L'X';`. -/
def fillCell (PreparedText : List Nat) (TextLength : Int) (i j : Nat)
    (st : List (List Nat) × Nat) : List (List Nat) × Nat :=
  if (st.2 : Int) < TextLength then (setCell st.1 i j (PreparedText.getD st.2 0), st.2 + 1)
  else (setCell st.1 i j 88, st.2)

/-- The final loop of `Decrypt`:
`while (!Result.empty() && Result.back() == L'X') Result.pop_back();`
Every iteration removes one character, so `Result.length` iterations are enough
fuel. -/
def popTrailingX : Nat → List Nat → List Nat
  | 0, Result => Result
  | fuel + 1, Result =>
    if ¬ Result.isEmpty ∧ Result.getLast? = some 88 then popTrailingX fuel Result.dropLast
    else Result

/-- The method `RouteCipher::Encrypt`. -/
def RouteCipher.Encrypt (c : RouteCipher) (Text : List Nat) : Option (List Nat) :=
  match ValidateText Text with
  | none => none
  | some _ =>
    match PrepareText Text with
    | none => none
    | some PreparedText =>
      let TextLength : Int := PreparedText.length
      let Rows : Int := Int.tdiv (TextLength + c.Columns - 1) c.Columns
      let Table := newTable Rows.toNat c.Columns.toNat
      let filled :=
        (List.range Rows.toNat).foldl
          (fun st i =>
            (List.range c.Columns.toNat).foldl
              (fun st j => fillCell PreparedText TextLength i j st) st)
          (Table, 0)
      some
        ((List.range c.Columns.toNat).reverse.foldl
          (fun Result j =>
            (List.range Rows.toNat).foldl
              (fun Result i => Result ++ [getCell filled.1 i j]) Result)
          [])

/-- The method `RouteCipher::Decrypt`. -/
def RouteCipher.Decrypt (c : RouteCipher) (Text : List Nat) : Option (List Nat) :=
  match ValidateText Text with
  | none => none
  | some _ =>
    match PrepareText Text with
    | none => none
    | some PreparedText =>
      let TextLength : Int := PreparedText.length
      let Rows : Int := Int.tdiv (TextLength + c.Columns - 1) c.Columns
      let Table := newTable Rows.toNat c.Columns.toNat
      let filled :=
        (List.range c.Columns.toNat).reverse.foldl
          (fun st j =>
            (List.range Rows.toNat).foldl
              (fun st i => fillCell PreparedText TextLength i j st) st)
          (Table, 0)
      let Result :=
        (List.range Rows.toNat).foldl
          (fun Result i =>
            (List.range c.Columns.toNat).foldl
              (fun Result j => Result ++ [getCell filled.1 i j]) Result)
          []
      some (popTrailingX Result.length Result)

/-- A wide string literal as its list of code points. -/
def wstr (s : String) : List Nat := s.toList.map Char.toNat

/-- The characters kept by `CleanText`. -/
def keptChar (c : Nat) : Bool := decide (c ≠ 32 ∧ c ≠ 9 ∧ c ≠ 10 ∧ c ≠ 13)

/-- A table with `R` rows of `C` cells each. -/
def TableDims (t : List (List Nat)) (R C : Nat) : Prop :=
  t.length = R ∧ ∀ row ∈ t, row.length = C

/-- Cells in the order of `for i < R: for j < C`. -/
def rowMajor (R C : Nat) : List (Nat × Nat) :=
  (List.range R).flatMap (fun i => (List.range C).map (fun j => (i, j)))

/-- Cells in the order of `for j = C - 1 downto 0: for i < R`. -/
def colMajorRev (R C : Nat) : List (Nat × Nat) :=
  (List.range C).reverse.flatMap (fun j => (List.range R).map (fun i => (i, j)))

/-- The character at position `q` of the text `P` followed by padding `X`. -/
def padAt (P : List Nat) (q : Nat) : Nat := if q < P.length then P.getD q 0 else 88

/-- The filling loop body run over a list of cells. -/
def fillAll (P : List Nat) (cs : List (Nat × Nat)) (st : List (List Nat) × Nat) :
    List (List Nat) × Nat :=
  cs.foldl (fun st p => fillCell P P.length p.1 p.2 st) st

/-- The number of rows of the table: `(TextLength + Columns - 1) / Columns`. -/
def rowsOf (n C : Nat) : Nat := (n + C - 1) / C

/-- The ciphertext of a prepared text `N` with `C` columns, position by position. -/
def encryptedList (N : List Nat) (C : Nat) : List Nat :=
  (List.range (rowsOf N.length C * C)).map
    (fun q => padAt N ((q % rowsOf N.length C) * C + (C - 1 - q / rowsOf N.length C)))

/-- The row-major reading of the table of `Decrypt`, before the padding is stripped. -/
def decryptGrid (N : List Nat) (C : Nat) : List Nat :=
  (List.range (rowsOf N.length C * C)).map
    (fun q => padAt N ((C - 1 - q % C) * rowsOf N.length C + q / C))

/-- A character that `CleanText` keeps and `ToUpperCase` leaves alone. -/
def Normal (c : Nat) : Prop := keptChar c = true ∧ upperChar c = c

/-- The normalized form of a text: `CleanText`, then `ToUpperCase`, which is what
`PrepareText` returns when it does not throw. -/
def normalize (T : List Nat) : List Nat := ToUpperCase (CleanText T)

/-- An uppercase glyph of the Cyrillic alphabet: `А`..`Я` (U+0410..U+042F) or `Ё` (U+0401). -/
def upperCyrillic (ch : Nat) : Prop := (0x410 ≤ ch ∧ ch ≤ 0x42F) ∨ ch = 0x401

end Route

/-! ## Definitions: `modAlphaCipher` (`src/modAlphaCipher.cpp`) -/

namespace Gronsfeld

/-- The member `numAlpha`: the 66 bytes of the UTF-8 string literal
`"АБВГДЕЁЖЗИЙКЛМНОПРСТУФХЦЧШЩЪЫЬЭЮЯ"` of `src/modAlphaCipher.h`. -/
def numAlpha : List Nat :=
  [208, 144, 208, 145, 208, 146, 208, 147, 208, 148, 208, 149, 208, 129, 208, 150,
   208, 151, 208, 152, 208, 153, 208, 154, 208, 155, 208, 156, 208, 157, 208, 158,
   208, 159, 208, 160, 208, 161, 208, 162, 208, 163, 208, 164, 208, 165, 208, 166,
   208, 167, 208, 168, 208, 169, 208, 170, 208, 171, 208, 172, 208, 173, 208, 174,
   208, 175]

/-- The class `modAlphaCipher`: besides the constant `numAlpha` its only data member is
`std::vector<int> key`. -/
structure modAlphaCipher where
  key : List Int
deriving DecidableEq, Repr

/-- The library function `std::string::substr(pos, len)` for `pos <= size()`. -/
def substr (s : List Nat) (pos len : Nat) : List Nat := (s.drop pos).take len

/-- The method `modAlphaCipher::removeSpaces`: the loop appends every byte that is not `' '` (32). -/
def removeSpaces (s : List Nat) : List Nat :=
  s.foldl (fun result c => if c ≠ 32 then result ++ [c] else result) []

/-- The inner `for` loop of `textToIndices`: the first `pos` among `0, 2, 4, ...` below
`numAlpha.size()` with `numAlpha.substr(pos, 2) == letter` gives
`static_cast<int>(pos / 2)`; `none` is `found == false`. -/
def findLetter (letter : List Nat) : Option Int :=
  match ((List.range ((numAlpha.length + 1) / 2)).map (· * 2)).find?
      (fun pos => substr numAlpha pos 2 == letter) with
  | some pos => some ((pos / 2 : Nat) : Int)
  | none => none

/-- The `while (i < text.size())` loop of `textToIndices`, on the bytes from position
`i` on and the vector `indices` built so far. A single remaining byte is the case
`i + 1 >= text.size()`, which throws. -/
def textToIndicesLoop : List Nat → List Int → Option (List Int)
  | [], indices => some indices
  | [_], _ => none
  | b1 :: b2 :: rest, indices =>
    match findLetter [b1, b2] with
    | some idx => textToIndicesLoop rest (indices ++ [idx])
    | none => none

/-- The method `modAlphaCipher::textToIndices`. -/
def textToIndices (text : List Nat) : Option (List Int) :=
  match textToIndicesLoop text [] with
  | none => none
  | some indices => if indices.isEmpty then none else some indices

/-- The method `modAlphaCipher::indicesToText`. -/
def indicesToText (indices : List Int) : List Nat :=
  indices.foldl
    (fun result idx =>
      if idx ≥ 0 ∧ idx < ((numAlpha.length / 2 : Nat) : Int)
      then result ++ substr numAlpha (idx.toNat * 2) 2
      else result) []

/-- The constructor `modAlphaCipher::modAlphaCipher(const string& skey)`. -/
def modAlphaCipher.new (skey : List Nat) : Option modAlphaCipher :=
  let cleanKey := removeSpaces skey
  if cleanKey.isEmpty then none
  else
    match textToIndices cleanKey with
    | none => none
    | some key => some { key := key }

/-- The method `modAlphaCipher::encrypt`. -/
def modAlphaCipher.encrypt (c : modAlphaCipher) (open_text : List Nat) : Option (List Nat) :=
  let cleanText := removeSpaces open_text
  if cleanText.isEmpty then none
  else
    match textToIndices cleanText with
    | none => none
    | some work =>
      let alphabetSize : Int := ((numAlpha.length / 2 : Nat) : Int)
      let work := (List.range work.length).foldl
        (fun work i =>
          work.set i (Int.tmod (work.getD i 0 + c.key.getD (i % c.key.length) 0) alphabetSize))
        work
      some (indicesToText work)

/-- The method `modAlphaCipher::decrypt`. -/
def modAlphaCipher.decrypt (c : modAlphaCipher) (cipher_text : List Nat) : Option (List Nat) :=
  let cleanText := removeSpaces cipher_text
  if cleanText.isEmpty then none
  else
    match textToIndices cleanText with
    | none => none
    | some work =>
      let alphabetSize : Int := ((numAlpha.length / 2 : Nat) : Int)
      let work := (List.range work.length).foldl
        (fun work i =>
          work.set i
            (Int.tmod (work.getD i 0 - c.key.getD (i % c.key.length) 0 + alphabetSize)
              alphabetSize))
        work
      some (indicesToText work)

/-- A narrow string literal as its list of UTF-8 bytes. -/
def str (s : String) : List Nat :=
  (s.toList.flatMap String.utf8EncodeChar).map UInt8.toNat

/-- The glyph with alphabet index `p`: the two bytes of `numAlpha` from `2 * p` on. -/
def glyphAt (p : Nat) : List Nat := substr numAlpha (p * 2) 2

/-- What `indicesToText` appends for one index. -/
def glyphOf (idx : Int) : List Nat :=
  if idx ≥ 0 ∧ idx < ((numAlpha.length / 2 : Nat) : Int) then glyphAt idx.toNat else []

/-- An alphabet index: `0 <= idx < 33`. -/
def ValidIdx (idx : Int) : Prop := 0 ≤ idx ∧ idx < 33

/-- The glyphs of the alphabet, in the order of `numAlpha`. -/
def alphabet : List (List Nat) := (List.range (numAlpha.length / 2)).map glyphAt

/-- A concatenation of glyphs of the alphabet. -/
def IsGlyphConcat (s : List Nat) : Prop :=
  ∃ gs : List (List Nat), (∀ g ∈ gs, g ∈ alphabet) ∧ s = gs.flatten

/-- The UTF-8 encoding of a lowercase Cyrillic letter: `а`..`п` are `D0 B0`..`D0 BF`,
`р`..`я` are `D1 80`..`D1 8F`, and `ё` is `D1 91`. -/
def IsLowerCyrillic (g : List Nat) : Prop :=
  (∃ b, 0xB0 ≤ b ∧ b ≤ 0xBF ∧ g = [0xD0, b]) ∨ (∃ b, 0x80 ≤ b ∧ b ≤ 0x8F ∧ g = [0xD1, b])
    ∨ g = [0xD1, 0x91]

end Gronsfeld

/-! ## Lemmas about `RouteCipher` -/

namespace Route

theorem CleanText_foldl (Text acc : List Nat) :
    Text.foldl
      (fun Result c => if c ≠ 32 ∧ c ≠ 9 ∧ c ≠ 10 ∧ c ≠ 13 then Result ++ [c] else Result) acc
      = acc ++ Text.filter keptChar := by
  induction Text generalizing acc with
  | nil => simp
  | cons c cs ih =>
    rw [List.foldl_cons, ih]
    by_cases h : c ≠ 32 ∧ c ≠ 9 ∧ c ≠ 10 ∧ c ≠ 13
    · have hk : keptChar c = true := by simp [keptChar, h]
      simp [h, hk, List.filter_cons]
    · have hk : keptChar c = false := by simp only [keptChar, decide_eq_false_iff_not]; exact h
      simp [h, hk, List.filter_cons]

theorem CleanText_eq_filter (Text : List Nat) : CleanText Text = Text.filter keptChar := by
  unfold CleanText
  rw [CleanText_foldl]
  simp

theorem keptChar_upperChar (c : Nat) (h : keptChar c = true) : keptChar (upperChar c) = true := by
  simp only [keptChar, decide_eq_true_eq] at h ⊢
  unfold upperChar
  split_ifs <;> omega

theorem upperChar_idem (c : Nat) : upperChar (upperChar c) = upperChar c := by
  unfold upperChar
  split_ifs <;> omega

theorem newTable_dims (R C : Nat) : TableDims (newTable R C) R C := by
  refine ⟨by simp [newTable], ?_⟩
  intro row hrow
  simp only [newTable] at hrow
  rw [List.eq_of_mem_replicate hrow]
  simp

theorem setCell_dims {t : List (List Nat)} {R C : Nat} (h : TableDims t R C) (i j v : Nat) :
    TableDims (setCell t i j v) R C := by
  obtain ⟨h1, h2⟩ := h
  refine ⟨by simp [setCell, h1], ?_⟩
  intro row hrow
  simp only [setCell] at hrow
  rcases List.mem_or_eq_of_mem_set hrow with hm | he
  · exact h2 row hm
  · subst he
    rw [List.length_set]
    by_cases hi : i < t.length
    · rw [List.getD_eq_getElem _ _ hi]
      exact h2 _ (List.getElem_mem _)
    · have hrow2 := hrow
      rw [List.set_eq_of_length_le (by omega)] at hrow2
      rw [List.getD_eq_default _ _ (by omega)] at hrow2 ⊢
      exact h2 _ (by simpa using hrow2)

theorem getCell_setCell {t : List (List Nat)} {R C : Nat} (h : TableDims t R C)
    {i j : Nat} (hi : i < R) (hj : j < C) (v i2 j2 : Nat) :
    getCell (setCell t i j v) i2 j2 = if i2 = i ∧ j2 = j then v else getCell t i2 j2 := by
  obtain ⟨h1, h2⟩ := h
  have hit : i < t.length := by omega
  have hrow : (t.getD i []).length = C := by
    rw [List.getD_eq_getElem _ _ hit]
    exact h2 _ (List.getElem_mem _)
  simp only [getCell, setCell, List.getD_eq_getElem?_getD, List.getElem?_set]
  by_cases e1 : i = i2
  · subst e1
    by_cases e2 : j = j2
    · subst e2
      have hrow2 : (t[i]).length = C := h2 _ (List.getElem_mem _)
      simp [hit, hrow2, hj]
    · have e3 : ¬ j2 = j := fun h => e2 h.symm
      simp [hit, e2, e3]
  · have e3 : ¬ i2 = i := fun h => e1 h.symm
    simp [e1, e3]

theorem foldl_nested {α β γ σ : Type} (h : α → β → γ) (G : γ → σ → σ)
    (l1 : List α) (l2 : List β) (s : σ) :
    l1.foldl (fun st a => l2.foldl (fun st b => G (h a b) st) st) s
      = (l1.flatMap (fun a => l2.map (h a))).foldl (fun st p => G p st) s := by
  induction l1 generalizing s with
  | nil => simp
  | cons a l1 ih =>
    rw [List.foldl_cons, ih, List.flatMap_cons, List.foldl_append, List.foldl_map]

theorem rowMajor_eq_map (R C : Nat) :
    rowMajor R C = (List.range (R * C)).map (fun q => (q / C, q % C)) := by
  induction R with
  | zero => simp [rowMajor]
  | succ R ih =>
    have e : (R + 1) * C = R * C + C := by ring
    unfold rowMajor at ih ⊢
    rw [List.range_succ, List.flatMap_append, ih, e, List.range_add, List.map_append]
    congr 1
    simp only [List.flatMap_cons, List.flatMap_nil, List.append_nil, List.map_map]
    apply List.map_congr_left
    intro j hj
    have hj2 : j < C := List.mem_range.mp hj
    have hC : 0 < C := by omega
    simp only [Function.comp, Prod.mk.injEq]
    constructor
    · rw [Nat.mul_comm R C, Nat.mul_add_div hC, Nat.div_eq_of_lt hj2]; rfl
    · rw [Nat.mul_comm R C, Nat.mul_add_mod, Nat.mod_eq_of_lt hj2]

theorem colMajorRev_eq_map (R C : Nat) :
    colMajorRev R C = (List.range (R * C)).map (fun q => (q % R, C - 1 - q / R)) := by
  induction C with
  | zero => simp [colMajorRev]
  | succ C ih =>
    have e : R * (C + 1) = R + R * C := by ring
    unfold colMajorRev at ih ⊢
    rw [List.range_succ, List.reverse_append, List.reverse_singleton, List.singleton_append,
      List.flatMap_cons, ih, e, List.range_add, List.map_append, List.map_map]
    congr 1
    · apply List.map_congr_left
      intro i hi
      have hi2 : i < R := List.mem_range.mp hi
      simp only [Function.comp, Prod.mk.injEq]
      rw [Nat.mod_eq_of_lt hi2, Nat.div_eq_of_lt hi2]
      omega
    · apply List.map_congr_left
      intro q hq
      have hq2 : q < R * C := List.mem_range.mp hq
      have hR : 0 < R := by
        rcases Nat.eq_zero_or_pos R with h | h
        · subst h; simp at hq2
        · exact h
      simp only [Function.comp, Prod.mk.injEq]
      rw [Nat.add_mod_left, Nat.add_div_left q hR]
      constructor
      · rfl
      · omega

theorem fillCell_eq (P : List Nat) (i j : Nat) (t : List (List Nat)) (k : Nat) :
    fillCell P P.length i j (t, k)
      = (setCell t i j (padAt P k), if k < P.length then k + 1 else k) := by
  unfold fillCell padAt
  by_cases h : k < P.length
  · have h2 : (k : Int) < (P.length : Int) := by exact_mod_cast h
    simp [h, h2]
  · have h2 : ¬ (k : Int) < (P.length : Int) := by exact_mod_cast h
    simp [h, h2]

theorem padAt_of_le (P : List Nat) (q : Nat) (h : P.length ≤ q) : padAt P q = 88 := by
  unfold padAt
  rw [if_neg (by omega)]

theorem fill_spec (P : List Nat) (R C : Nat) (cs : List (Nat × Nat)) :
    ∀ (t : List (List Nat)) (k : Nat), TableDims t R C →
      (∀ p ∈ cs, p.1 < R ∧ p.2 < C) → cs.Nodup →
      TableDims (fillAll P cs (t, k)).1 R C ∧
      (∀ q (hq : q < cs.length),
        getCell (fillAll P cs (t, k)).1 (cs[q]).1 (cs[q]).2 = padAt P (k + q)) ∧
      (∀ i j, (i, j) ∉ cs → getCell (fillAll P cs (t, k)).1 i j = getCell t i j) := by
  induction cs with
  | nil =>
    intro t k ht _ _
    refine ⟨ht, ?_, ?_⟩
    · intro q hq; simp at hq
    · intro i j _; rfl
  | cons p rest ih =>
    intro t k ht hb hnd
    have hp := hb p (List.mem_cons_self _ _)
    have hrest : ∀ p ∈ rest, p.1 < R ∧ p.2 < C := fun x hx => hb x (List.mem_cons_of_mem _ hx)
    obtain ⟨hpn, hnd2⟩ := List.nodup_cons.mp hnd
    have hstep : fillAll P (p :: rest) (t, k)
        = fillAll P rest (setCell t p.1 p.2 (padAt P k), if k < P.length then k + 1 else k) := by
      unfold fillAll
      rw [List.foldl_cons, fillCell_eq]
    rw [hstep]
    obtain ⟨d1, d2, d3⟩ := ih (setCell t p.1 p.2 (padAt P k))
      (if k < P.length then k + 1 else k) (setCell_dims ht _ _ _) hrest hnd2
    refine ⟨d1, ?_, ?_⟩
    · intro q hq
      cases q with
      | zero =>
        simp only [List.getElem_cons_zero, Nat.add_zero]
        rw [d3 p.1 p.2 hpn, getCell_setCell ht hp.1 hp.2]
        simp
      | succ q =>
        simp only [List.getElem_cons_succ]
        have hq2 : q < rest.length := by simpa using hq
        rw [d2 q hq2]
        by_cases hk : k < P.length
        · rw [if_pos hk]
          congr 1
          omega
        · rw [if_neg hk, padAt_of_le P _ (by omega), padAt_of_le P _ (by omega)]
    · intro i j hij
      have h1 : (i, j) ∉ rest := fun h => hij (List.mem_cons_of_mem _ h)
      have h2 : ¬ (i = p.1 ∧ j = p.2) := by
        intro h
        apply hij
        rw [show (i, j) = p from Prod.ext h.1 h.2]
        exact List.mem_cons_self _ _
      rw [d3 i j h1, getCell_setCell ht hp.1 hp.2, if_neg h2]

theorem read_foldl (t : List (List Nat)) (cs : List (Nat × Nat)) (acc : List Nat) :
    cs.foldl (fun Result p => Result ++ [getCell t p.1 p.2]) acc
      = acc ++ cs.map (fun p => getCell t p.1 p.2) := by
  induction cs generalizing acc with
  | nil => simp
  | cons p rest ih => rw [List.foldl_cons, ih]; simp

theorem rowMajor_nodup (R C : Nat) : (rowMajor R C).Nodup := by
  rw [rowMajor_eq_map]
  refine List.Nodup.map_on ?_ (List.nodup_range _)
  intro a _ b _ hab
  simp only [Prod.mk.injEq] at hab
  rw [← Nat.div_add_mod a C, ← Nat.div_add_mod b C, hab.1, hab.2]

theorem colMajorRev_nodup (R C : Nat) : (colMajorRev R C).Nodup := by
  rw [colMajorRev_eq_map]
  refine List.Nodup.map_on ?_ (List.nodup_range _)
  intro a ha b hb hab
  simp only [Prod.mk.injEq] at hab
  have ha2 : a < R * C := List.mem_range.mp ha
  have hb2 : b < R * C := List.mem_range.mp hb
  have hda : a / R < C := Nat.div_lt_of_lt_mul ha2
  have hdb : b / R < C := Nat.div_lt_of_lt_mul hb2
  have hd : a / R = b / R := by omega
  rw [← Nat.div_add_mod a R, ← Nat.div_add_mod b R, hab.1, hd]

theorem rowMajor_bounds (R C : Nat) : ∀ p ∈ rowMajor R C, p.1 < R ∧ p.2 < C := by
  intro p hp
  rw [rowMajor_eq_map, List.mem_map] at hp
  obtain ⟨q, hq, rfl⟩ := hp
  have hq2 : q < R * C := List.mem_range.mp hq
  have hC : 0 < C := by
    rcases Nat.eq_zero_or_pos C with h | h
    · subst h; simp at hq2
    · exact h
  exact ⟨Nat.div_lt_of_lt_mul (by rw [Nat.mul_comm]; exact hq2), Nat.mod_lt _ hC⟩

theorem colMajorRev_bounds (R C : Nat) : ∀ p ∈ colMajorRev R C, p.1 < R ∧ p.2 < C := by
  intro p hp
  rw [colMajorRev_eq_map, List.mem_map] at hp
  obtain ⟨q, hq, rfl⟩ := hp
  have hq2 : q < R * C := List.mem_range.mp hq
  have hR : 0 < R := by
    rcases Nat.eq_zero_or_pos R with h | h
    · subst h; simp at hq2
    · exact h
  have hC : 0 < C := by
    rcases Nat.eq_zero_or_pos C with h | h
    · subst h; simp at hq2
    · exact h
  have hsub : ∀ x : Nat, C - 1 - x < C := fun x => by omega
  exact ⟨Nat.mod_lt _ hR, hsub _⟩

theorem rowMajor_length (R C : Nat) : (rowMajor R C).length = R * C := by
  rw [rowMajor_eq_map]; simp

theorem colMajorRev_length (R C : Nat) : (colMajorRev R C).length = R * C := by
  rw [colMajorRev_eq_map]; simp

theorem cell_index_lt {R C i j : Nat} (hi : i < R) (hj : j < C) : i * C + j < R * C := by
  have h1 : (i + 1) * C ≤ R * C := Nat.mul_le_mul_right C hi
  have h2 : (i + 1) * C = i * C + C := by ring
  omega

theorem filled_rowMajor (P : List Nat) {R C : Nat} {t : List (List Nat)} (ht : TableDims t R C)
    {i j : Nat} (hi : i < R) (hj : j < C) :
    getCell (fillAll P (rowMajor R C) (t, 0)).1 i j = padAt P (i * C + j) := by
  obtain ⟨_, d2, _⟩ := fill_spec P R C (rowMajor R C) t 0 ht (rowMajor_bounds R C)
    (rowMajor_nodup R C)
  have hq : i * C + j < (rowMajor R C).length := by
    rw [rowMajor_length]; exact cell_index_lt hi hj
  have hcs : (rowMajor R C)[i * C + j] = (i, j) := by
    simp only [rowMajor_eq_map, List.getElem_map, List.getElem_range, Prod.mk.injEq]
    have hC : 0 < C := by omega
    constructor
    · rw [Nat.mul_comm i C, Nat.mul_add_div hC, Nat.div_eq_of_lt hj]; rfl
    · rw [Nat.mul_comm i C, Nat.mul_add_mod, Nat.mod_eq_of_lt hj]
  have h := d2 (i * C + j) hq
  rw [hcs, Nat.zero_add] at h
  exact h

theorem filled_colMajorRev (P : List Nat) {R C : Nat} {t : List (List Nat)}
    (ht : TableDims t R C) {i j : Nat} (hi : i < R) (hj : j < C) :
    getCell (fillAll P (colMajorRev R C) (t, 0)).1 i j = padAt P ((C - 1 - j) * R + i) := by
  obtain ⟨_, d2, _⟩ := fill_spec P R C (colMajorRev R C) t 0 ht (colMajorRev_bounds R C)
    (colMajorRev_nodup R C)
  have hjc : C - 1 - j < C := by omega
  have hq : (C - 1 - j) * R + i < (colMajorRev R C).length := by
    rw [colMajorRev_length, Nat.mul_comm R C]; exact cell_index_lt hjc hi
  have hcs : (colMajorRev R C)[(C - 1 - j) * R + i] = (i, j) := by
    simp only [colMajorRev_eq_map, List.getElem_map, List.getElem_range, Prod.mk.injEq]
    have hR : 0 < R := by omega
    constructor
    · rw [Nat.mul_comm _ R, Nat.mul_add_mod, Nat.mod_eq_of_lt hi]
    · rw [Nat.mul_comm _ R, Nat.mul_add_div hR, Nat.div_eq_of_lt hi]
      omega
  have h := d2 ((C - 1 - j) * R + i) hq
  rw [hcs, Nat.zero_add] at h
  exact h

theorem rows_toNat (n : Nat) (k : Int) (hk : 1 ≤ k) :
    (Int.tdiv ((n : Int) + k - 1) k).toNat = rowsOf n k.toNat := by
  obtain ⟨C, rfl⟩ := Int.eq_ofNat_of_zero_le (by omega : 0 ≤ k)
  have hC : 1 ≤ C := by exact_mod_cast hk
  have e : (n : Int) + (C : Int) - 1 = ((n + C - 1 : Nat) : Int) := by omega
  rw [e, Int.tdiv_eq_ediv (by omega) (by omega), ← Int.natCast_div, Int.toNat_natCast]
  rfl

theorem PrepareText_ne_nil {T N : List Nat} (h : PrepareText T = some N) : T ≠ [] := by
  intro hT
  subst hT
  simp [PrepareText, CleanText] at h

theorem fill_rowMajor_loop (P : List Nat) (R C : Nat) (s : List (List Nat) × Nat) :
    (List.range R).foldl
      (fun st i => (List.range C).foldl (fun st j => fillCell P P.length i j st) st) s
      = fillAll P (rowMajor R C) s :=
  foldl_nested (fun i j => (i, j)) (fun p st => fillCell P P.length p.1 p.2 st) _ _ s

theorem fill_colMajorRev_loop (P : List Nat) (R C : Nat) (s : List (List Nat) × Nat) :
    (List.range C).reverse.foldl
      (fun st j => (List.range R).foldl (fun st i => fillCell P P.length i j st) st) s
      = fillAll P (colMajorRev R C) s :=
  foldl_nested (fun j i => (i, j)) (fun p st => fillCell P P.length p.1 p.2 st) _ _ s

theorem read_colMajorRev_loop (t : List (List Nat)) (R C : Nat) :
    (List.range C).reverse.foldl
      (fun Result j => (List.range R).foldl (fun Result i => Result ++ [getCell t i j]) Result) []
      = (colMajorRev R C).map (fun p => getCell t p.1 p.2) := by
  have h := foldl_nested (fun j i => (i, j)) (fun p Result => Result ++ [getCell t p.1 p.2])
    (List.range C).reverse (List.range R) []
  rw [read_foldl] at h
  simpa [colMajorRev] using h

theorem read_rowMajor_loop (t : List (List Nat)) (R C : Nat) :
    (List.range R).foldl
      (fun Result i => (List.range C).foldl (fun Result j => Result ++ [getCell t i j]) Result) []
      = (rowMajor R C).map (fun p => getCell t p.1 p.2) := by
  have h := foldl_nested (fun i j => (i, j)) (fun p Result => Result ++ [getCell t p.1 p.2])
    (List.range R) (List.range C) []
  rw [read_foldl] at h
  simpa [rowMajor] using h

theorem Encrypt_eq (c : RouteCipher) (hc : 1 ≤ c.Columns) {T N : List Nat}
    (hN : PrepareText T = some N) :
    c.Encrypt T = some ((List.range (rowsOf N.length c.Columns.toNat * c.Columns.toNat)).map
      (fun q => padAt N ((q % rowsOf N.length c.Columns.toNat) * c.Columns.toNat
        + (c.Columns.toNat - 1 - q / rowsOf N.length c.Columns.toNat)))) := by
  have hV : ValidateText T = some () := by
    have := PrepareText_ne_nil hN
    cases T with
    | nil => exact absurd rfl this
    | cons a l => rfl
  simp only [RouteCipher.Encrypt, hV, hN, rows_toNat _ _ hc]
  rw [fill_rowMajor_loop, read_colMajorRev_loop, colMajorRev_eq_map, List.map_map]
  congr 1
  apply List.map_congr_left
  intro q hq
  have hq2 := List.mem_range.mp hq
  have hR : 0 < rowsOf N.length c.Columns.toNat := by
    rcases Nat.eq_zero_or_pos (rowsOf N.length c.Columns.toNat) with h | h
    · rw [h] at hq2; simp at hq2
    · exact h
  have hC : 0 < c.Columns.toNat := by omega
  have hsub : ∀ x : Nat, c.Columns.toNat - 1 - x < c.Columns.toNat := fun x => by omega
  simp only [Function.comp]
  exact filled_rowMajor N (newTable_dims _ _) (Nat.mod_lt _ hR) (hsub _)

theorem Decrypt_eq (c : RouteCipher) (hc : 1 ≤ c.Columns) {T N : List Nat}
    (hN : PrepareText T = some N) :
    c.Decrypt T = some (popTrailingX (rowsOf N.length c.Columns.toNat * c.Columns.toNat)
      ((List.range (rowsOf N.length c.Columns.toNat * c.Columns.toNat)).map
        (fun q => padAt N ((c.Columns.toNat - 1 - q % c.Columns.toNat)
          * rowsOf N.length c.Columns.toNat + q / c.Columns.toNat)))) := by
  have hV : ValidateText T = some () := by
    have := PrepareText_ne_nil hN
    cases T with
    | nil => exact absurd rfl this
    | cons a l => rfl
  simp only [RouteCipher.Decrypt, hV, hN, rows_toNat _ _ hc]
  rw [fill_colMajorRev_loop, read_rowMajor_loop, rowMajor_eq_map, List.map_map]
  have hmap : (List.range (rowsOf N.length c.Columns.toNat * c.Columns.toNat)).map
        ((fun p => getCell (fillAll N (colMajorRev (rowsOf N.length c.Columns.toNat)
          c.Columns.toNat) (newTable (rowsOf N.length c.Columns.toNat) c.Columns.toNat, 0)).1
            p.1 p.2) ∘ fun q => (q / c.Columns.toNat, q % c.Columns.toNat))
      = (List.range (rowsOf N.length c.Columns.toNat * c.Columns.toNat)).map
        (fun q => padAt N ((c.Columns.toNat - 1 - q % c.Columns.toNat)
          * rowsOf N.length c.Columns.toNat + q / c.Columns.toNat)) := by
    apply List.map_congr_left
    intro q hq
    have hq2 := List.mem_range.mp hq
    have hC : 0 < c.Columns.toNat := by omega
    simp only [Function.comp]
    exact filled_colMajorRev N (newTable_dims _ _)
      (Nat.div_lt_of_lt_mul (by rw [Nat.mul_comm]; exact hq2)) (Nat.mod_lt _ hC)
  rw [hmap]
  simp

theorem popTrailingX_eq (fuel : Nat) :
    ∀ r : List Nat, r.length ≤ fuel → popTrailingX fuel r = r.rdropWhile (· == 88) := by
  induction fuel with
  | zero =>
    intro r hr
    have : r = [] := List.length_eq_zero.mp (by omega)
    subst this
    simp [popTrailingX]
  | succ fuel ih =>
    intro r hr
    rcases List.eq_nil_or_concat r with h | ⟨l, x, h⟩
    · subst h
      simp [popTrailingX]
    · rw [List.concat_eq_append] at h
      subst h
      have hl : l.length ≤ fuel := by simp at hr; omega
      by_cases hx : x = 88
      · subst hx
        have hc : ¬ (l ++ [88]).isEmpty = true ∧ (l ++ [88]).getLast? = some 88 := by simp
        rw [popTrailingX, if_pos hc, List.dropLast_concat, ih l hl,
          List.rdropWhile_concat_pos _ _ _ (by simp)]
      · have hc : ¬ (¬ (l ++ [x]).isEmpty = true ∧ (l ++ [x]).getLast? = some 88) := by
          simp [hx]
        rw [popTrailingX, if_neg hc, List.rdropWhile_concat_neg _ _ _ (by simpa using hx)]

theorem rdropWhile_append_replicate (N : List Nat) (m : Nat) :
    (N ++ List.replicate m 88).rdropWhile (· == 88) = N.rdropWhile (· == 88) := by
  induction m with
  | zero => simp
  | succ m ih =>
    rw [List.replicate_succ', ← List.append_assoc, List.rdropWhile_concat_pos _ _ _ (by simp), ih]

theorem le_rowsOf_mul (n C : Nat) (hC : 0 < C) : n ≤ rowsOf n C * C := by
  unfold rowsOf
  have h1 := Nat.div_add_mod (n + C - 1) C
  have h2 := Nat.mod_lt (n + C - 1) hC
  rw [Nat.mul_comm] at h1
  omega

theorem rowsOf_mul_lt (n C : Nat) (hC : 0 < C) : rowsOf n C * C < n + C := by
  unfold rowsOf
  have h1 := Nat.div_add_mod (n + C - 1) C
  rw [Nat.mul_comm] at h1
  omega

theorem rowsOf_mul (R C : Nat) (hC : 0 < C) : rowsOf (R * C) C = R := by
  unfold rowsOf
  have e : R * C + C - 1 = C - 1 + C * R := by rw [Nat.mul_comm]; omega
  rw [e, Nat.add_mul_div_left _ _ hC, Nat.div_eq_of_lt (by omega)]
  omega

theorem rowsOf_pos (n C : Nat) (hn : 0 < n) (hC : 0 < C) : 0 < rowsOf n C := by
  have h := le_rowsOf_mul n C hC
  rcases Nat.eq_zero_or_pos (rowsOf n C) with h0 | h0
  · rw [h0] at h; omega
  · exact h0

/-- The text `N` followed by `m - N.length` padding characters, as a list of length `m`. -/
theorem map_padAt (N : List Nat) (m : Nat) (h : N.length ≤ m) :
    (List.range m).map (padAt N) = N ++ List.replicate (m - N.length) 88 := by
  apply List.ext_getElem
  · simp; omega
  · intro q h1 h2
    simp only [List.getElem_map, List.getElem_range, padAt]
    by_cases hq : q < N.length
    · rw [if_pos hq, List.getElem_append_left hq, List.getD_eq_getElem _ _ hq]
    · rw [if_neg hq, List.getElem_append_right (by omega)]
      simp

theorem Encrypt_closed (c : RouteCipher) (hc : 1 ≤ c.Columns) {T N : List Nat}
    (hN : PrepareText T = some N) : c.Encrypt T = some (encryptedList N c.Columns.toNat) :=
  Encrypt_eq c hc hN

theorem Decrypt_closed (c : RouteCipher) (hc : 1 ≤ c.Columns) {T N : List Nat}
    (hN : PrepareText T = some N) :
    c.Decrypt T = some ((decryptGrid N c.Columns.toNat).rdropWhile (· == 88)) := by
  rw [Decrypt_eq c hc hN, popTrailingX_eq _ _ (by simp)]
  rfl

theorem encryptedList_length (N : List Nat) (C : Nat) :
    (encryptedList N C).length = rowsOf N.length C * C := by
  simp [encryptedList]

theorem decryptGrid_length (N : List Nat) (C : Nat) :
    (decryptGrid N C).length = rowsOf N.length C * C := by
  simp [decryptGrid]

theorem encryptedList_getElem? (N : List Nat) (C : Nat) {i j : Nat}
    (hi : i < rowsOf N.length C) (hj : j < C) :
    (encryptedList N C)[(C - 1 - j) * rowsOf N.length C + i]? = some (padAt N (i * C + j)) := by
  have hjc : C - 1 - j < C := by omega
  have hq : (C - 1 - j) * rowsOf N.length C + i < rowsOf N.length C * C := by
    rw [Nat.mul_comm (rowsOf N.length C) C]; exact cell_index_lt hjc hi
  have hR : 0 < rowsOf N.length C := by omega
  unfold encryptedList
  rw [List.getElem?_map, List.getElem?_range hq]
  simp only [Option.map_some']
  rw [Nat.mul_comm (C - 1 - j) _, Nat.mul_add_mod, Nat.mod_eq_of_lt hi, Nat.mul_add_div hR,
    Nat.div_eq_of_lt hi]
  congr 3
  omega

theorem decryptGrid_getElem? (N : List Nat) (C : Nat) {i j : Nat}
    (hi : i < rowsOf N.length C) (hj : j < C) :
    (decryptGrid N C)[i * C + j]? = some (padAt N ((C - 1 - j) * rowsOf N.length C + i)) := by
  have hq : i * C + j < rowsOf N.length C * C := cell_index_lt hi hj
  have hC : 0 < C := by omega
  unfold decryptGrid
  rw [List.getElem?_map, List.getElem?_range hq]
  simp only [Option.map_some']
  rw [Nat.mul_comm i C, Nat.mul_add_mod, Nat.mod_eq_of_lt hj, Nat.mul_add_div hC,
    Nat.div_eq_of_lt hj]
  simp

theorem PrepareText_eq_some {T N : List Nat} :
    PrepareText T = some N ↔ CleanText T ≠ [] ∧ N = ToUpperCase (CleanText T) := by
  unfold PrepareText
  by_cases h : CleanText T = []
  · simp [h]
  · have he : (CleanText T).isEmpty = false := by
      cases hc : CleanText T with
      | nil => exact absurd hc h
      | cons a l => rfl
    simp only [he, Bool.false_eq_true, if_false, Option.some.injEq, ne_eq, h,
      not_false_eq_true, true_and]
    exact eq_comm

theorem PrepareText_normal {T N : List Nat} (h : PrepareText T = some N) :
    ∀ c ∈ N, Normal c := by
  obtain ⟨_, rfl⟩ := PrepareText_eq_some.mp h
  intro c hc
  simp only [ToUpperCase, CleanText_eq_filter, List.mem_map, List.mem_filter] at hc
  obtain ⟨a, ⟨_, hk⟩, rfl⟩ := hc
  exact ⟨keptChar_upperChar a hk, upperChar_idem a⟩

theorem PrepareText_of_normal {E : List Nat} (hE : E ≠ []) (h : ∀ c ∈ E, Normal c) :
    PrepareText E = some E := by
  rw [PrepareText_eq_some]
  have h1 : CleanText E = E := by
    rw [CleanText_eq_filter, List.filter_eq_self]
    exact fun c hc => (h c hc).1
  rw [h1]
  refine ⟨hE, ?_⟩
  unfold ToUpperCase
  symm
  calc E.map upperChar = E.map id := List.map_congr_left (fun c hc => (h c hc).2)
    _ = E := List.map_id E

theorem padAt_normal {N : List Nat} (h : ∀ c ∈ N, Normal c) (q : Nat) : Normal (padAt N q) := by
  unfold padAt
  by_cases hq : q < N.length
  · rw [if_pos hq, List.getD_eq_getElem _ _ hq]
    exact h _ (List.getElem_mem _)
  · rw [if_neg hq]
    exact ⟨by decide, by decide⟩

theorem decryptGrid_encryptedList (N : List Nat) (C : Nat) (hC : 0 < C) :
    decryptGrid (encryptedList N C) C
      = N ++ List.replicate (rowsOf N.length C * C - N.length) 88 := by
  rw [← map_padAt N _ (le_rowsOf_mul _ _ hC)]
  unfold decryptGrid
  rw [encryptedList_length, rowsOf_mul _ _ hC]
  apply List.map_congr_left
  intro q hq
  have hq2 : q < rowsOf N.length C * C := List.mem_range.mp hq
  have hi : q / C < rowsOf N.length C := Nat.div_lt_of_lt_mul (by rw [Nat.mul_comm]; exact hq2)
  have hj : q % C < C := Nat.mod_lt _ hC
  have hget := encryptedList_getElem? N C hi hj
  have hlt : (C - 1 - q % C) * rowsOf N.length C + q / C < (encryptedList N C).length := by
    rw [encryptedList_length, Nat.mul_comm (rowsOf N.length C) C]
    exact cell_index_lt (by omega) hi
  have hpad : padAt (encryptedList N C) ((C - 1 - q % C) * rowsOf N.length C + q / C)
      = padAt N (q / C * C + q % C) := by
    rw [List.getElem?_eq_getElem hlt] at hget
    have hget2 := Option.some.inj hget
    rw [← hget2]
    unfold padAt
    rw [if_pos hlt, List.getD_eq_getElem _ _ hlt]
  rw [hpad]
  congr 1
  have := Nat.div_add_mod q C
  rw [Nat.mul_comm] at this
  exact this

theorem round_trip_core (c : RouteCipher) (hc : 1 ≤ c.Columns) {T N : List Nat}
    (hN : PrepareText T = some N) :
    ∃ E, c.Encrypt T = some E ∧ c.Decrypt E = some (N.rdropWhile (· == 88)) := by
  have hC : 0 < c.Columns.toNat := by omega
  have hNne : N ≠ [] := by
    obtain ⟨h1, rfl⟩ := PrepareText_eq_some.mp hN
    simpa [ToUpperCase] using h1
  have hn : 0 < N.length := List.length_pos.mpr hNne
  refine ⟨encryptedList N c.Columns.toNat, Encrypt_closed c hc hN, ?_⟩
  have hEne : encryptedList N c.Columns.toNat ≠ [] := by
    apply List.ne_nil_of_length_pos
    rw [encryptedList_length]
    exact Nat.mul_pos (rowsOf_pos _ _ hn hC) hC
  have hEnorm : ∀ x ∈ encryptedList N c.Columns.toNat, Normal x := by
    intro x hx
    simp only [encryptedList, List.mem_map] at hx
    obtain ⟨q, _, rfl⟩ := hx
    exact padAt_normal (PrepareText_normal hN) _
  rw [Decrypt_closed c hc (PrepareText_of_normal hEne hEnorm),
    decryptGrid_encryptedList N _ hC, rdropWhile_append_replicate]

theorem rowsOf_eq_ceil (n C : Nat) (hC : 0 < C) : rowsOf n C = ⌈(n : ℚ) / (C : ℚ)⌉₊ := by
  have hCq : (0 : ℚ) < (C : ℚ) := by exact_mod_cast hC
  apply le_antisymm
  · by_contra hlt
    push_neg at hlt
    have h1 : (n : ℚ) / (C : ℚ) ≤ (⌈(n : ℚ) / (C : ℚ)⌉₊ : ℚ) := Nat.le_ceil _
    rw [div_le_iff₀ hCq] at h1
    have h2 : n ≤ ⌈(n : ℚ) / (C : ℚ)⌉₊ * C := by exact_mod_cast h1
    have h3 : (⌈(n : ℚ) / (C : ℚ)⌉₊ + 1) * C ≤ rowsOf n C * C := Nat.mul_le_mul_right C hlt
    have h4 := rowsOf_mul_lt n C hC
    have h5 : (⌈(n : ℚ) / (C : ℚ)⌉₊ + 1) * C = ⌈(n : ℚ) / (C : ℚ)⌉₊ * C + C := by ring
    omega
  · rw [Nat.ceil_le, div_le_iff₀ hCq]
    exact_mod_cast le_rowsOf_mul n C hC

theorem PrepareText_normalize {T : List Nat} (h : normalize T ≠ []) :
    PrepareText T = some (normalize T) := by
  rw [PrepareText_eq_some]
  refine ⟨?_, rfl⟩
  intro h0
  apply h
  simp [normalize, h0, ToUpperCase]

theorem new_eq_some {k : Int} (h1 : 1 ≤ k) (h2 : k ≤ 50) :
    RouteCipher.new k = some { Columns := k } := by
  have a : ¬ k ≤ 0 := by omega
  have b : ¬ k > 50 := by omega
  simp [RouteCipher.new, ValidateKey, a, b]

theorem new_some_iff {k : Int} {c : RouteCipher} :
    RouteCipher.new k = some c ↔ (1 ≤ k ∧ k ≤ 50) ∧ c = { Columns := k } := by
  by_cases h : 1 ≤ k ∧ k ≤ 50
  · rw [new_eq_some h.1 h.2]
    simp [h, eq_comm]
  · have : RouteCipher.new k = none := by
      unfold RouteCipher.new ValidateKey
      by_cases a : k ≤ 0
      · simp [a]
      · have b : k > 50 := by omega
        simp [a, b]
    simp [this, h]

theorem Encrypt_none {c : RouteCipher} {T : List Nat} (h : PrepareText T = none) :
    c.Encrypt T = none := by
  unfold RouteCipher.Encrypt
  cases ValidateText T <;> simp [h]

theorem Decrypt_none {c : RouteCipher} {T : List Nat} (h : PrepareText T = none) :
    c.Decrypt T = none := by
  unfold RouteCipher.Decrypt
  cases ValidateText T <;> simp [h]

theorem PrepareText_eq_none {T : List Nat} :
    PrepareText T = none ↔ ∀ ch ∈ T, ch = 32 ∨ ch = 9 ∨ ch = 10 ∨ ch = 13 := by
  have h1 : PrepareText T = none ↔ CleanText T = [] := by
    unfold PrepareText
    by_cases h : CleanText T = []
    · simp [h]
    · have he : (CleanText T).isEmpty = false := by
        cases hc : CleanText T with
        | nil => exact absurd hc h
        | cons a l => rfl
      simp [he, h]
  rw [h1, CleanText_eq_filter, List.filter_eq_nil_iff]
  constructor
  · intro h ch hch
    have := h ch hch
    simp only [keptChar, decide_eq_true_eq] at this
    omega
  · intro h ch hch
    have := h ch hch
    simp only [keptChar, decide_eq_true_eq]
    omega

theorem fails_iff {c : RouteCipher} (hc : 1 ≤ c.Columns) (T : List Nat) :
    (c.Encrypt T = none ↔ PrepareText T = none) ∧ (c.Decrypt T = none ↔ PrepareText T = none) := by
  cases h : PrepareText T with
  | none => exact ⟨by simp [Encrypt_none h], by simp [Decrypt_none h]⟩
  | some N => exact ⟨by simp [Encrypt_closed c hc h], by simp [Decrypt_closed c hc h]⟩

theorem rdropWhile_ne_self {N : List Nat} (h : N.getLast? = some 88) :
    N.rdropWhile (· == 88) ≠ N := by
  intro he
  rw [List.rdropWhile_eq_self_iff] at he
  have hne : N ≠ [] := by
    intro h0; subst h0; simp at h
  have h2 := he hne
  rw [List.getLast?_eq_getLast _ hne] at h
  have h3 := Option.some.inj h
  simp [h3] at h2

theorem rdropWhile_eq_self {N : List Nat} (h : N.getLast? ≠ some 88) :
    N.rdropWhile (· == 88) = N := by
  rw [List.rdropWhile_eq_self_iff]
  intro hne
  rw [List.getLast?_eq_getLast _ hne] at h
  simpa using h

theorem normalize_upperCyrillic {T : List Nat} (h : ∀ ch ∈ T, upperCyrillic ch) :
    normalize T = T := by
  have hn : ∀ ch ∈ T, Normal ch := by
    intro ch hch
    have := h ch hch
    unfold upperCyrillic at this
    refine ⟨?_, ?_⟩
    · simp only [keptChar, decide_eq_true_eq]; omega
    · unfold upperChar
      split_ifs <;> omega
  unfold normalize
  have h1 : CleanText T = T := by
    rw [CleanText_eq_filter, List.filter_eq_self]
    exact fun c hc => (hn c hc).1
  rw [h1]
  unfold ToUpperCase
  calc T.map upperChar = T.map id := List.map_congr_left (fun c hc => (hn c hc).2)
    _ = T := List.map_id T

theorem rowsOf_single (n K : Nat) (h1 : 1 ≤ n) (h2 : n ≤ K) : rowsOf n K = 1 := by
  unfold rowsOf
  have hK : 0 < K := by omega
  have e : n + K - 1 = K + (n - 1) := by omega
  rw [e, Nat.add_div_left _ hK, Nat.div_eq_of_lt (by omega)]

theorem encryptedList_single (N : List Nat) (K : Nat) (h1 : 1 ≤ N.length) (h2 : N.length ≤ K) :
    encryptedList N K = List.replicate (K - N.length) 88 ++ N.reverse := by
  unfold encryptedList
  rw [rowsOf_single _ _ h1 h2]
  apply List.ext_getElem?
  intro q
  rw [List.getElem?_map]
  by_cases hq : q < K
  · rw [List.getElem?_range (by omega)]
    simp only [Option.map_some', Nat.mod_one, Nat.zero_mul, Nat.zero_add, Nat.div_one]
    by_cases hq2 : q < K - N.length
    · rw [List.getElem?_append_left (by simpa using hq2),
        List.getElem?_eq_getElem (by simpa using hq2), padAt_of_le _ _ (by omega)]
      simp
    · rw [List.getElem?_append_right (by simp; omega)]
      simp only [List.length_replicate]
      rw [List.getElem?_reverse (by omega)]
      have hidx : N.length - 1 - (q - (K - N.length)) = K - 1 - q := by omega
      have hlt : K - 1 - q < N.length := by omega
      rw [hidx, List.getElem?_eq_getElem hlt]
      unfold padAt
      rw [if_pos hlt, List.getD_eq_getElem _ _ hlt]
  · rw [List.getElem?_eq_none (by simp; omega), List.getElem?_eq_none (by simp; omega)]
    rfl

theorem normalize_length_pos {T : List Nat} (h : normalize T ≠ []) : 1 ≤ (normalize T).length :=
  List.length_pos.mpr h

/-! ### Transposition, one column, and results of `Decrypt` -/

theorem mem_rowMajor {R C i j : Nat} (hi : i < R) (hj : j < C) : (i, j) ∈ rowMajor R C := by
  rw [rowMajor_eq_map, List.mem_map]
  have hC : 0 < C := by omega
  refine ⟨i * C + j, List.mem_range.mpr (cell_index_lt hi hj), ?_⟩
  rw [Prod.mk.injEq]
  constructor
  · rw [Nat.mul_comm i C, Nat.mul_add_div hC, Nat.div_eq_of_lt hj]; rfl
  · rw [Nat.mul_comm i C, Nat.mul_add_mod, Nat.mod_eq_of_lt hj]

theorem colMajorRev_perm_rowMajor (R C : Nat) : (colMajorRev R C).Perm (rowMajor R C) := by
  apply List.Subperm.perm_of_length_le
  · apply List.subperm_of_subset (colMajorRev_nodup R C)
    intro p hp
    obtain ⟨h1, h2⟩ := colMajorRev_bounds R C p hp
    exact mem_rowMajor h1 h2
  · rw [rowMajor_length, colMajorRev_length]

theorem encryptedList_eq_cells (N : List Nat) (C : Nat) :
    encryptedList N C
      = (colMajorRev (rowsOf N.length C) C).map (fun p => padAt N (p.1 * C + p.2)) := by
  rw [colMajorRev_eq_map, List.map_map]
  rfl

theorem padded_eq_cells (N : List Nat) (C : Nat) (hC : 0 < C) :
    N ++ List.replicate (rowsOf N.length C * C - N.length) 88
      = (rowMajor (rowsOf N.length C) C).map (fun p => padAt N (p.1 * C + p.2)) := by
  rw [← map_padAt N _ (le_rowsOf_mul _ _ hC), rowMajor_eq_map, List.map_map]
  apply List.map_congr_left
  intro q _
  simp only [Function.comp]
  congr 1
  have := Nat.div_add_mod q C
  rw [Nat.mul_comm] at this
  exact this.symm

theorem encryptedList_perm (N : List Nat) (C : Nat) (hC : 0 < C) :
    (encryptedList N C).Perm (N ++ List.replicate (rowsOf N.length C * C - N.length) 88) := by
  rw [encryptedList_eq_cells, padded_eq_cells N C hC]
  exact (colMajorRev_perm_rowMajor _ _).map _

theorem rowsOf_one (n : Nat) : rowsOf n 1 = n := by
  simp [rowsOf]

theorem encryptedList_one (N : List Nat) : encryptedList N 1 = N := by
  unfold encryptedList
  rw [rowsOf_one, Nat.mul_one]
  have h : (List.range N.length).map
      (fun q => padAt N ((q % N.length) * 1 + (1 - 1 - q / N.length)))
      = (List.range N.length).map (padAt N) := by
    apply List.map_congr_left
    intro q hq
    have hq2 : q < N.length := List.mem_range.mp hq
    rw [Nat.mod_eq_of_lt hq2, Nat.div_eq_of_lt hq2]
    simp
  rw [h, map_padAt N _ (Nat.le_refl _)]
  simp

theorem decryptGrid_one (N : List Nat) : decryptGrid N 1 = N := by
  unfold decryptGrid
  rw [rowsOf_one, Nat.mul_one]
  have h : (List.range N.length).map
      (fun q => padAt N ((1 - 1 - q % 1) * N.length + q / 1))
      = (List.range N.length).map (padAt N) := by
    apply List.map_congr_left
    intro q _
    simp
  rw [h, map_padAt N _ (Nat.le_refl _)]
  simp

theorem rdropWhile_getLast?_ne (l : List Nat) :
    (l.rdropWhile (· == 88)).getLast? ≠ some 88 := by
  intro h
  have hne : l.rdropWhile (· == 88) ≠ [] := by
    intro h0; rw [h0] at h; simp at h
  have h2 := List.rdropWhile_last_not (fun x => x == 88) l hne
  rw [List.getLast?_eq_getLast _ hne] at h
  rw [Option.some.inj h] at h2
  simp at h2

theorem decryptGrid_all_X (N : List Nat) (C : Nat) (h : ∀ ch ∈ N, ch = 88) :
    (decryptGrid N C).rdropWhile (· == 88) = [] := by
  rw [List.rdropWhile_eq_nil_iff]
  intro x hx
  simp only [decryptGrid, List.mem_map] at hx
  obtain ⟨q, _, rfl⟩ := hx
  unfold padAt
  by_cases hq : (C - 1 - q % C) * rowsOf N.length C + q / C < N.length
  · rw [if_pos hq, List.getD_eq_getElem _ _ hq, h _ (List.getElem_mem _)]
    rfl
  · rw [if_neg hq]
    rfl

theorem Decrypt_some_inv {c : RouteCipher} (hc : 1 ≤ c.Columns) {T D : List Nat}
    (h : c.Decrypt T = some D) :
    ∃ N, PrepareText T = some N ∧ D = (decryptGrid N c.Columns.toNat).rdropWhile (· == 88) := by
  cases hN : PrepareText T with
  | none => rw [Decrypt_none hN] at h; simp at h
  | some N =>
    rw [Decrypt_closed c hc hN] at h
    exact ⟨N, rfl, (Option.some.inj h).symm⟩

/-! ## Claims about `RouteCipher` -/

/-- C1. Route cipher round trip. For every column count `k` with `1 ≤ k ≤ 50` the
constructor succeeds, and for every text `T` whose normalized form is non-empty and
does not end in the padding glyph `X` (or, in particular, every non-empty text of
uppercase Cyrillic glyphs) `Encrypt` succeeds and `Decrypt` of its result succeeds
and returns the normalized form of `T`, which for a Cyrillic uppercase text is `T`
itself. -/
theorem C1_route_round_trip (k : Int) (T : List Nat) (hk1 : 1 ≤ k) (hk2 : k ≤ 50)
    (hT : (normalize T ≠ [] ∧ (normalize T).getLast? ≠ some 88)
      ∨ (T ≠ [] ∧ ∀ ch ∈ T, upperCyrillic ch)) :
    ∃ c E, RouteCipher.new k = some c ∧ c.Encrypt T = some E
      ∧ c.Decrypt E = some (normalize T)
      ∧ ((∀ ch ∈ T, upperCyrillic ch) → normalize T = T) := by
  have hN : normalize T ≠ [] ∧ (normalize T).getLast? ≠ some 88 := by
    rcases hT with h | ⟨hne, hcyr⟩
    · exact h
    · rw [normalize_upperCyrillic hcyr]
      refine ⟨hne, ?_⟩
      rw [List.getLast?_eq_getLast _ hne]
      intro h
      have h2 := hcyr _ (List.getLast_mem hne)
      rw [Option.some.inj h] at h2
      unfold upperCyrillic at h2
      omega
  obtain ⟨E, hE, hD⟩ := round_trip_core { Columns := k } hk1 (PrepareText_normalize hN.1)
  rw [rdropWhile_eq_self hN.2] at hD
  exact ⟨_, E, new_eq_some hk1 hk2, hE, hD, normalize_upperCyrillic⟩

/-- The test 3.1 of `src/2/main.cpp`: `"HELLO"` with key 3 survives the round trip. -/
theorem C1_route_round_trip_witness :
    ∃ c E, RouteCipher.new 3 = some c ∧ c.Encrypt (wstr "HELLO") = some E
      ∧ c.Decrypt E = some (wstr "HELLO") := by
  obtain ⟨c, E, h1, h2, h3, _⟩ := C1_route_round_trip 3 (wstr "HELLO") (by decide) (by decide)
    (Or.inl (by decide))
  exact ⟨c, E, h1, h2, by rw [h3]; decide⟩

/-- C3. Lossy route round trip. For every valid column count `k` and every text `T`
whose normalized form is non-empty, `Decrypt (Encrypt T)` succeeds and equals the
normalized form of `T` with every trailing `X` removed; when the normalized form ends
in `X` the result differs from it, so the plaintext is not recovered. -/
theorem C3_route_lossy_round_trip (k : Int) (T : List Nat) (hk1 : 1 ≤ k) (hk2 : k ≤ 50)
    (hT : normalize T ≠ []) :
    ∃ c E, RouteCipher.new k = some c ∧ c.Encrypt T = some E
      ∧ c.Decrypt E = some ((normalize T).rdropWhile (· == 88))
      ∧ ((normalize T).getLast? = some 88 → c.Decrypt E ≠ some (normalize T)) := by
  obtain ⟨E, hE, hD⟩ := round_trip_core { Columns := k } hk1 (PrepareText_normalize hT)
  refine ⟨_, E, new_eq_some hk1 hk2, hE, hD, ?_⟩
  intro hX he
  rw [hD] at he
  exact rdropWhile_ne_self hX (Option.some.inj he)

/-- With key 2 the text `"ax x"` (normalized `"AXX"`) comes back as `"A"`. -/
theorem C3_route_lossy_round_trip_witness :
    ∃ c E, RouteCipher.new 2 = some c ∧ c.Encrypt (wstr "ax x") = some E
      ∧ c.Decrypt E = some (wstr "A") ∧ c.Decrypt E ≠ some (wstr "AXX") := by
  obtain ⟨c, E, h1, h2, h3, h4⟩ := C3_route_lossy_round_trip 2 (wstr "ax x") (by decide)
    (by decide) (by decide)
  exact ⟨c, E, h1, h2, by rw [h3]; decide, h4 (by decide)⟩

/-- C4. Construction fails exactly when the key is `<= 0` or `> 50`; for every key
in `[1, 50]` it succeeds and `GetColumns` returns that key. -/
theorem C4_route_key_validation (k : Int) :
    (RouteCipher.new k = none ↔ (k ≤ 0 ∨ k > 50))
      ∧ ((RouteCipher.new k).map RouteCipher.GetColumns
          = if 1 ≤ k ∧ k ≤ 50 then some k else none) := by
  by_cases h : 1 ≤ k ∧ k ≤ 50
  · rw [new_eq_some h.1 h.2, if_pos h]
    refine ⟨?_, rfl⟩
    simp only [reduceCtorEq, false_iff]
    omega
  · have hn : RouteCipher.new k = none := by
      cases hc : RouteCipher.new k with
      | none => rfl
      | some c => exact absurd (new_some_iff.mp hc).1 h
    rw [hn, if_neg h]
    refine ⟨?_, rfl⟩
    simp only [true_iff]
    omega

/-- C5. For every valid cipher, `Encrypt T` and `Decrypt T` throw exactly when `T` is
empty or consists solely of space, tab, line-feed and carriage-return characters;
on every other text both return a value. -/
theorem C5_route_empty_text (k : Int) (c : RouteCipher) (T : List Nat)
    (hc : RouteCipher.new k = some c) :
    (c.Encrypt T = none ↔ (T = [] ∨ ∀ ch ∈ T, ch = 32 ∨ ch = 9 ∨ ch = 10 ∨ ch = 13))
      ∧ (c.Decrypt T = none ↔ (T = [] ∨ ∀ ch ∈ T, ch = 32 ∨ ch = 9 ∨ ch = 10 ∨ ch = 13))
      ∧ (¬ (T = [] ∨ ∀ ch ∈ T, ch = 32 ∨ ch = 9 ∨ ch = 10 ∨ ch = 13) →
          ∃ E D, c.Encrypt T = some E ∧ c.Decrypt T = some D) := by
  obtain ⟨⟨hk1, _⟩, rfl⟩ := new_some_iff.mp hc
  have hP : (T = [] ∨ ∀ ch ∈ T, ch = 32 ∨ ch = 9 ∨ ch = 10 ∨ ch = 13) ↔ PrepareText T = none := by
    rw [PrepareText_eq_none]
    constructor
    · rintro (h | h)
      · subst h; simp
      · exact h
    · exact Or.inr
  have hf := fails_iff (c := { Columns := k }) hk1 T
  refine ⟨hf.1.trans hP.symm, hf.2.trans hP.symm, ?_⟩
  intro hnot
  have h1 : ¬ PrepareText T = none := fun h => hnot (hP.mpr h)
  obtain ⟨N, hN⟩ := Option.ne_none_iff_exists'.mp h1
  exact ⟨_, _, Encrypt_closed _ hk1 hN, Decrypt_closed _ hk1 hN⟩

/-- With key 3: a text of a space and a tab is rejected by `Encrypt` and `Decrypt`. -/
theorem C5_route_empty_text_witness :
    (RouteCipher.mk 3).Encrypt [32, 9] = none ∧ (RouteCipher.mk 3).Decrypt [32, 9] = none := by
  obtain ⟨h1, h2, _⟩ := C5_route_empty_text 3 (RouteCipher.mk 3) [32, 9] (by decide)
  exact ⟨h1.mpr (Or.inr (by decide)), h2.mpr (Or.inr (by decide))⟩

/-- C8. Route `Encrypt` equals its grid definition. For every valid column count `K`
and text `T` with non-empty normalized form `N` of length `n`, with
`rows = ceil (n / K)` and `P = N` followed by `rows * K - n` copies of `X`: `Encrypt T`
succeeds with a result of length `rows * K` whose character at position
`(K - 1 - j) * rows + i` is `P[i * K + j]`, for every row `i < rows` and column
`j < K`. -/
theorem C8_route_encrypt_grid (K : Nat) (c : RouteCipher) (T : List Nat) (i j : Nat)
    (hc : RouteCipher.new (K : Int) = some c) (hT : normalize T ≠ [])
    (hi : i < ⌈((normalize T).length : ℚ) / (K : ℚ)⌉₊) (hj : j < K) :
    ∃ E x, c.Encrypt T = some E
      ∧ E.length = ⌈((normalize T).length : ℚ) / (K : ℚ)⌉₊ * K
      ∧ (normalize T ++ List.replicate
          (⌈((normalize T).length : ℚ) / (K : ℚ)⌉₊ * K - (normalize T).length) 88)[i * K + j]?
          = some x
      ∧ E[(K - 1 - j) * ⌈((normalize T).length : ℚ) / (K : ℚ)⌉₊ + i]? = some x := by
  obtain ⟨⟨hk1, _⟩, rfl⟩ := new_some_iff.mp hc
  have hK : 0 < K := by omega
  rw [← rowsOf_eq_ceil _ _ hK] at hi ⊢
  have hE := Encrypt_closed { Columns := (K : Int) } hk1 (PrepareText_normalize hT)
  simp only [Int.toNat_natCast] at hE
  refine ⟨_, padAt (normalize T) (i * K + j), hE, encryptedList_length _ _, ?_,
    encryptedList_getElem? _ _ hi hj⟩
  rw [← map_padAt _ _ (le_rowsOf_mul _ _ hK), List.getElem?_map,
    List.getElem?_range (cell_index_lt hi hj)]
  rfl

/-- With key 3 and `"HELLO"` (rows = 2): row 1, column 0 of the grid holds `L`, which
`Encrypt` puts at position `(3 - 1 - 0) * 2 + 1 = 5`. -/
theorem C8_route_encrypt_grid_witness :
    ∃ E, (RouteCipher.mk 3).Encrypt (wstr "HELLO") = some E ∧ E[5]? = some 76 := by
  have hn : ((normalize (wstr "HELLO")).length : ℚ) / ((3 : ℕ) : ℚ) = 5 / 3 := by
    have : (normalize (wstr "HELLO")).length = 5 := by decide
    rw [this]; norm_num
  have hceil : ⌈((normalize (wstr "HELLO")).length : ℚ) / ((3 : ℕ) : ℚ)⌉₊ = 2 := by
    rw [hn, Nat.ceil_eq_iff (by norm_num)]
    norm_num
  obtain ⟨E, x, h1, _, h3, h4⟩ := C8_route_encrypt_grid 3 (RouteCipher.mk 3) (wstr "HELLO") 1 0
    (by decide) (by decide) (by rw [hceil]; decide) (by decide)
  rw [hceil] at h3 h4
  have hx : x = 76 := by
    have h5 : (normalize (wstr "HELLO") ++ List.replicate (2 * 3 - (normalize (wstr "HELLO")).length) 88)[1 * 3 + 0]? = some 76 := by
      decide
    rw [h5] at h3
    exact (Option.some.inj h3).symm
  subst hx
  exact ⟨E, h1, h4⟩

/-- C9. Route `Decrypt` equals its grid definition. For every valid column count `K`
and text `T` with non-empty normalized form `N` of length `n` and
`rows = ceil (n / K)`: if `G` is the string of length `rows * K` whose character at
row-major position `i * K + j` is `N[(K - 1 - j) * rows + i]` when that index is below
`n` and `X` otherwise, then `Decrypt T` succeeds and is `G` with all trailing `X`
removed. -/
theorem C9_route_decrypt_grid (K : Nat) (c : RouteCipher) (T G : List Nat)
    (hc : RouteCipher.new (K : Int) = some c) (hT : normalize T ≠ [])
    (hlen : G.length = ⌈((normalize T).length : ℚ) / (K : ℚ)⌉₊ * K)
    (hG : ∀ i j, i < ⌈((normalize T).length : ℚ) / (K : ℚ)⌉₊ → j < K →
      G[i * K + j]?
        = if (K - 1 - j) * ⌈((normalize T).length : ℚ) / (K : ℚ)⌉₊ + i < (normalize T).length
          then (normalize T)[(K - 1 - j) * ⌈((normalize T).length : ℚ) / (K : ℚ)⌉₊ + i]?
          else some 88) :
    c.Decrypt T = some (G.rdropWhile (· == 88)) := by
  obtain ⟨⟨hk1, _⟩, rfl⟩ := new_some_iff.mp hc
  have hK : 0 < K := by omega
  rw [← rowsOf_eq_ceil _ _ hK] at hlen hG
  have hD := Decrypt_closed { Columns := (K : Int) } hk1 (PrepareText_normalize hT)
  simp only [Int.toNat_natCast] at hD
  rw [hD]
  congr 2
  apply List.ext_getElem?
  intro q
  by_cases hq : q < rowsOf (normalize T).length K * K
  · have hi : q / K < rowsOf (normalize T).length K :=
      Nat.div_lt_of_lt_mul (by rw [Nat.mul_comm]; exact hq)
    have hj : q % K < K := Nat.mod_lt _ hK
    have hqe : q / K * K + q % K = q := by
      have := Nat.div_add_mod q K
      rw [Nat.mul_comm] at this
      exact this
    have h1 := decryptGrid_getElem? (normalize T) K hi hj
    have h2 := hG (q / K) (q % K) hi hj
    rw [hqe] at h1 h2
    rw [h1, h2]
    unfold padAt
    by_cases hlt : (K - 1 - q % K) * rowsOf (normalize T).length K + q / K < (normalize T).length
    · rw [if_pos hlt, if_pos hlt, List.getD_eq_getElem _ _ hlt, List.getElem?_eq_getElem hlt]
    · rw [if_neg hlt, if_neg hlt]
  · rw [List.getElem?_eq_none (by rw [decryptGrid_length]; omega),
      List.getElem?_eq_none (by omega)]

/-- The test 3.2 of `src/2/main.cpp`: `Decrypt("CBA")` with key 3 is `"ABC"`. -/
theorem C9_route_decrypt_grid_witness :
    (RouteCipher.mk 3).Decrypt (wstr "CBA") = some (wstr "ABC") := by
  have hn : ((normalize (wstr "CBA")).length : ℚ) / ((3 : ℕ) : ℚ) = 1 := by
    have : (normalize (wstr "CBA")).length = 3 := by decide
    rw [this]; norm_num
  have hceil : ⌈((normalize (wstr "CBA")).length : ℚ) / ((3 : ℕ) : ℚ)⌉₊ = 1 := by
    rw [hn]; simp
  have h := C9_route_decrypt_grid 3 (RouteCipher.mk 3) (wstr "CBA") (wstr "ABC") (by decide)
    (by decide) (by rw [hceil]; decide)
    (by
      rw [hceil]
      intro i j hi hj
      interval_cases i
      interval_cases j <;> decide)
  rw [h]
  decide

/-- C14. Single-row route encryption reverses the text. For every valid column count
`K` and text `T` whose normalized form `N` is non-empty and has length `n ≤ K`,
`Encrypt T` is `K - n` copies of `X` followed by the reverse of `N`; when `n = K` it is
exactly the reverse of `N`. -/
theorem C14_route_single_row (K : Nat) (c : RouteCipher) (T : List Nat)
    (hc : RouteCipher.new (K : Int) = some c) (hT : normalize T ≠ [])
    (hn : (normalize T).length ≤ K) :
    c.Encrypt T = some (List.replicate (K - (normalize T).length) 88 ++ (normalize T).reverse)
      ∧ ((normalize T).length = K → c.Encrypt T = some (normalize T).reverse) := by
  obtain ⟨⟨hk1, _⟩, rfl⟩ := new_some_iff.mp hc
  have hE := Encrypt_closed { Columns := (K : Int) } hk1 (PrepareText_normalize hT)
  simp only [Int.toNat_natCast] at hE
  rw [encryptedList_single _ _ (normalize_length_pos hT) hn] at hE
  refine ⟨hE, ?_⟩
  intro heq
  rw [hE, heq]
  simp

/-- The test 2.1 of `src/2/main.cpp`: `Encrypt("ABC")` with key 3 is `"CBA"`. -/
theorem C14_route_single_row_witness :
    (RouteCipher.mk 3).Encrypt (wstr "ABC") = some (wstr "CBA") := by
  have h := (C14_route_single_row 3 (RouteCipher.mk 3) (wstr "ABC") (by decide) (by decide)
    (by decide)).2 (by decide)
  rw [h]
  decide

/-- C15, as stated, fails: with `Columns = 3` the text `"HELLO"` is not encrypted to
`"LXOLHE"`. -/
theorem C15_route_doc_example_counterexample :
    (RouteCipher.mk 3).Encrypt (wstr "HELLO") ≠ some (wstr "LXOLHE") := by
  decide

/-- C15, amended. With `Columns = 3` and `Text = "HELLO"` the constructor succeeds,
`TextLength` is 5, `Rows` is 2, the filled table is `[H, E, L] / [L, O, X]`, and
`Encrypt` returns `"LXEOHL"`: the columns read from the rightmost to the leftmost, each
from top to bottom. -/
theorem C15_route_doc_example :
    RouteCipher.new 3 = some (RouteCipher.mk 3)
      ∧ PrepareText (wstr "HELLO") = some (wstr "HELLO")
      ∧ (wstr "HELLO").length = 5
      ∧ rowsOf 5 3 = 2
      ∧ (fillAll (wstr "HELLO") (rowMajor 2 3) (newTable 2 3, 0)).1 = [wstr "HEL", wstr "LOX"]
      ∧ (RouteCipher.mk 3).Encrypt (wstr "HELLO") = some (wstr "LXEOHL") := by
  decide

/-- C16. Length of the route ciphertext. For every valid column count `K` and text `T`
with non-empty normalized form of length `n`, `Encrypt T` succeeds with a result of
length `ceil (n / K) * K`, which is `((n + K - 1) / K) * K` with integer division; the
length is a multiple of `K`, at least `n` and less than `n + K`, and the padding lies in
the final row: the rows before it hold fewer than `n` cells. -/
theorem C16_route_cipher_length (K : Nat) (c : RouteCipher) (T : List Nat)
    (hc : RouteCipher.new (K : Int) = some c) (hT : normalize T ≠ []) :
    ∃ E, c.Encrypt T = some E
      ∧ E.length = ⌈((normalize T).length : ℚ) / (K : ℚ)⌉₊ * K
      ∧ E.length = ((normalize T).length + K - 1) / K * K
      ∧ K ∣ E.length
      ∧ (normalize T).length ≤ E.length
      ∧ E.length < (normalize T).length + K
      ∧ (E.length / K - 1) * K < (normalize T).length := by
  obtain ⟨⟨hk1, _⟩, rfl⟩ := new_some_iff.mp hc
  have hK : 0 < K := by omega
  have hE := Encrypt_closed { Columns := (K : Int) } hk1 (PrepareText_normalize hT)
  simp only [Int.toNat_natCast] at hE
  have hlen := encryptedList_length (normalize T) K
  have h1 := le_rowsOf_mul (normalize T).length K hK
  have h2 := rowsOf_mul_lt (normalize T).length K hK
  have hpos := rowsOf_pos _ K (normalize_length_pos hT) hK
  refine ⟨_, hE, ?_, hlen, ?_, ?_, ?_, ?_⟩
  · rw [hlen, rowsOf_eq_ceil _ _ hK]
  · rw [hlen]; exact Dvd.intro_left _ rfl
  · rw [hlen]; exact h1
  · rw [hlen]; exact h2
  · rw [hlen, Nat.mul_div_cancel _ hK]
    have e : (rowsOf (normalize T).length K - 1) * K + K = rowsOf (normalize T).length K * K := by
      have : rowsOf (normalize T).length K = (rowsOf (normalize T).length K - 1) + 1 := by omega
      conv_rhs => rw [this]
      ring
    omega

/-- The test 2.2 of `src/2/main.cpp`: with key 4 the ciphertext of `"@825B"` has length
8, a multiple of 4. -/
theorem C16_route_cipher_length_witness :
    ∃ E, (RouteCipher.mk 4).Encrypt (wstr "@825B") = some E ∧ E.length = 8 ∧ E.length % 4 = 0 := by
  obtain ⟨E, h1, _, h3, _⟩ := C16_route_cipher_length 4 (RouteCipher.mk 4) (wstr "@825B")
    (by decide) (by decide)
  have h5 : (normalize (wstr "@825B")).length = 5 := by decide
  rw [h5] at h3
  exact ⟨E, h1, h3, by rw [h3]⟩

/-- C21. Route-cipher removal step. For every wide string `T`, `CleanText T` is exactly
`T` with every space, horizontal tab, line feed and carriage return deleted and every
other character kept in its original order (other whitespace included); consequently the
normalized text used by `Encrypt` and `Decrypt` contains none of those four characters,
also after case folding. -/
theorem C21_route_clean_text (T : List Nat) :
    CleanText T = T.filter (fun ch => decide (ch ≠ 32 ∧ ch ≠ 9 ∧ ch ≠ 10 ∧ ch ≠ 13))
      ∧ (∀ ch ∈ normalize T, ch ≠ 32 ∧ ch ≠ 9 ∧ ch ≠ 10 ∧ ch ≠ 13)
      ∧ (∀ N, PrepareText T = some N → ∀ ch ∈ N, ch ≠ 32 ∧ ch ≠ 9 ∧ ch ≠ 10 ∧ ch ≠ 13)
      ∧ CleanText [11, 12, 0xA0, 0x2003, 0x3000] = [11, 12, 0xA0, 0x2003, 0x3000] := by
  have hnorm : ∀ ch ∈ normalize T, ch ≠ 32 ∧ ch ≠ 9 ∧ ch ≠ 10 ∧ ch ≠ 13 := by
    intro ch hch
    simp only [normalize, ToUpperCase, CleanText_eq_filter, List.mem_map, List.mem_filter] at hch
    obtain ⟨a, ⟨_, hk⟩, rfl⟩ := hch
    have := keptChar_upperChar a hk
    simpa [keptChar] using this
  refine ⟨CleanText_eq_filter T, hnorm, ?_, by decide⟩
  intro N hN
  obtain ⟨_, rfl⟩ := PrepareText_eq_some.mp hN
  exact hnorm

/-- The text `" a\tb\r\nя "` is cleaned to `"abя"` and normalized to `"ABЯ"`, neither of
which holds one of the four removed characters. -/
theorem C21_route_clean_text_witness :
    CleanText [32, 97, 9, 98, 13, 10, 0x44F, 32] = [97, 98, 0x44F]
      ∧ ∀ ch ∈ normalize [32, 97, 9, 98, 13, 10, 0x44F, 32],
          ch ≠ 32 ∧ ch ≠ 9 ∧ ch ≠ 10 ∧ ch ≠ 13 := by
  obtain ⟨h1, h2, _⟩ := C21_route_clean_text [32, 97, 9, 98, 13, 10, 0x44F, 32]
  exact ⟨by rw [h1]; decide, h2⟩

/-- C22. Route-cipher case folding. `ToUpperCase` preserves the length and maps every
character on its own: `a`..`z` to the corresponding `A`..`Z`, Cyrillic `а`..`я`
(U+0430..U+044F) to the corresponding `А`..`Я` (U+0410..U+042F), `ё` (U+0451) to `Ё`
(U+0401), and every other character to itself. -/
theorem C22_route_to_upper_case (T : List Nat) (i ch : Nat) (hi : T[i]? = some ch) :
    (ToUpperCase T).length = T.length
      ∧ ∃ u, (ToUpperCase T)[i]? = some u
        ∧ (97 ≤ ch ∧ ch ≤ 122 → u = 65 + (ch - 97) ∧ 65 ≤ u ∧ u ≤ 90)
        ∧ (0x430 ≤ ch ∧ ch ≤ 0x44F → u = 0x410 + (ch - 0x430) ∧ 0x410 ≤ u ∧ u ≤ 0x42F)
        ∧ (ch = 0x451 → u = 0x401)
        ∧ (¬ (97 ≤ ch ∧ ch ≤ 122) ∧ ¬ (0x430 ≤ ch ∧ ch ≤ 0x44F) ∧ ch ≠ 0x451 → u = ch) := by
  refine ⟨by simp [ToUpperCase], upperChar ch, ?_, ?_, ?_, ?_, ?_⟩
  · simp [ToUpperCase, hi]
  · intro h; unfold upperChar; split_ifs <;> omega
  · intro h; unfold upperChar; split_ifs <;> omega
  · intro h; unfold upperChar; split_ifs <;> omega
  · intro h; unfold upperChar; split_ifs <;> omega

/-- The string `"azяё5Q"` is folded to `"AZЯЁ5Q"`; its character at position 2 is `Я`. -/
theorem C22_route_to_upper_case_witness :
    ToUpperCase (wstr "azяё5Q") = wstr "AZЯЁ5Q" ∧ (ToUpperCase (wstr "azяё5Q"))[2]? = some 0x42F := by
  obtain ⟨_, u, h1, _, h3, _⟩ := C22_route_to_upper_case (wstr "azяё5Q") 2 0x44F (by decide)
  have hu := (h3 (by decide)).1
  rw [hu] at h1
  exact ⟨by decide, h1⟩

/-- C25. Route `Encrypt` is a pure transposition. For every valid column count `K` and
text `T` with non-empty normalized form `N`, `Encrypt T` succeeds and is a permutation of
`N` followed by `ceil (|N| / K) * K - |N|` copies of `X`. -/
theorem C25_route_encrypt_permutation (K : Nat) (c : RouteCipher) (T : List Nat)
    (hc : RouteCipher.new (K : Int) = some c) (hT : normalize T ≠ []) :
    ∃ E, c.Encrypt T = some E
      ∧ E.Perm (normalize T ++ List.replicate
          (⌈((normalize T).length : ℚ) / (K : ℚ)⌉₊ * K - (normalize T).length) 88) := by
  obtain ⟨⟨hk1, _⟩, rfl⟩ := new_some_iff.mp hc
  have hK : 0 < K := by omega
  have hE := Encrypt_closed { Columns := (K : Int) } hk1 (PrepareText_normalize hT)
  simp only [Int.toNat_natCast] at hE
  rw [← rowsOf_eq_ceil _ _ hK]
  exact ⟨_, hE, encryptedList_perm _ _ hK⟩

/-- With key 3 the ciphertext of `"HELLO"` is a permutation of `"HELLOX"`. -/
theorem C25_route_encrypt_permutation_witness :
    ∃ E, (RouteCipher.mk 3).Encrypt (wstr "HELLO") = some E ∧ E.Perm (wstr "HELLOX") := by
  obtain ⟨E, h1, h2⟩ := C25_route_encrypt_permutation 3 (RouteCipher.mk 3) (wstr "HELLO")
    (by decide) (by decide)
  have hn : ((normalize (wstr "HELLO")).length : ℚ) / ((3 : ℕ) : ℚ) = 5 / 3 := by
    have : (normalize (wstr "HELLO")).length = 5 := by decide
    rw [this]; norm_num
  have hceil : ⌈((normalize (wstr "HELLO")).length : ℚ) / ((3 : ℕ) : ℚ)⌉₊ = 2 := by
    rw [hn, Nat.ceil_eq_iff (by norm_num)]
    norm_num
  rw [hceil] at h2
  have e : normalize (wstr "HELLO") ++ List.replicate (2 * 3 - (normalize (wstr "HELLO")).length) 88
      = wstr "HELLOX" := by decide
  rw [e] at h2
  exact ⟨E, h1, h2⟩

/-- C26. Route `Decrypt` can succeed with an empty result on a non-empty input: with key
1 the text `"X"` is decrypted to the empty string, and so is, under every valid key,
every text whose normalized form is non-empty and consists of `X` only. On every input on
which `Decrypt` succeeds, the result does not end in `X`. -/
theorem C26_route_decrypt_empty_result (k : Int) (c : RouteCipher) (T : List Nat)
    (hc : RouteCipher.new k = some c) :
    (∃ c1, RouteCipher.new 1 = some c1 ∧ c1.Decrypt (wstr "X") = some [])
      ∧ (normalize T ≠ [] → (∀ ch ∈ normalize T, ch = 88) → c.Decrypt T = some [])
      ∧ (∀ D, c.Decrypt T = some D → D.getLast? ≠ some 88) := by
  obtain ⟨⟨hk1, _⟩, rfl⟩ := new_some_iff.mp hc
  refine ⟨⟨RouteCipher.mk 1, by decide, by decide⟩, ?_, ?_⟩
  · intro hT hX
    rw [Decrypt_closed _ hk1 (PrepareText_normalize hT), decryptGrid_all_X _ _ hX]
  · intro D hD
    obtain ⟨N, _, rfl⟩ := Decrypt_some_inv hk1 hD
    exact rdropWhile_getLast?_ne _

/-- With key 2 the text `"x X"` (normalized `"XX"`) is decrypted to the empty string. -/
theorem C26_route_decrypt_empty_result_witness :
    (RouteCipher.mk 2).Decrypt (wstr "x X") = some [] :=
  (C26_route_decrypt_empty_result 2 (RouteCipher.mk 2) (wstr "x X") (by decide)).2.1
    (by decide) (by decide)

/-- C29. With column count 1 the route cipher performs no permutation. For every text `T`
with non-empty normalized form, the cipher of key 1 encrypts `T` to its normalized form
(no padding, same order) and decrypts `T` to its normalized form with the trailing `X`
characters removed. -/
theorem C29_route_one_column (T : List Nat) (hT : normalize T ≠ []) :
    ∃ c, RouteCipher.new 1 = some c ∧ c.Encrypt T = some (normalize T)
      ∧ c.Decrypt T = some ((normalize T).rdropWhile (· == 88)) := by
  have hk1 : (1 : Int) ≤ (RouteCipher.mk 1).Columns := by decide
  have hE := Encrypt_closed (RouteCipher.mk 1) hk1 (PrepareText_normalize hT)
  have hD := Decrypt_closed (RouteCipher.mk 1) hk1 (PrepareText_normalize hT)
  have hC : (RouteCipher.mk 1).Columns.toNat = 1 := by decide
  rw [hC, encryptedList_one] at hE
  rw [hC, decryptGrid_one] at hD
  exact ⟨RouteCipher.mk 1, by decide, hE, hD⟩

/-- With key 1 the text `"ab xx"` is encrypted to `"ABXX"` and decrypted to `"AB"`. -/
theorem C29_route_one_column_witness :
    (RouteCipher.mk 1).Encrypt (wstr "ab xx") = some (wstr "ABXX")
      ∧ (RouteCipher.mk 1).Decrypt (wstr "ab xx") = some (wstr "AB") := by
  obtain ⟨c, h1, h2, h3⟩ := C29_route_one_column (wstr "ab xx") (by decide)
  have hc : c = RouteCipher.mk 1 := by
    have h : RouteCipher.new 1 = some (RouteCipher.mk 1) := by decide
    rw [h] at h1
    exact (Option.some.inj h1).symm
  subst hc
  exact ⟨by rw [h2]; decide, by rw [h3]; decide⟩

end Route

/-! ## Lemmas about `modAlphaCipher` -/

namespace Gronsfeld

theorem alphabetSize_eq : ((numAlpha.length / 2 : Nat) : Int) = 33 := by decide

theorem findLetter_glyphAt : ∀ p : Nat, p < 33 → findLetter (glyphAt p) = some (p : Int) := by
  decide

theorem glyphAt_shape :
    ∀ p < 33, glyphAt p = [208, (glyphAt p).getD 1 0]
      ∧ ((glyphAt p).getD 1 0 = 129 ∨ (144 ≤ (glyphAt p).getD 1 0 ∧ (glyphAt p).getD 1 0 ≤ 175)) := by
  decide

theorem findLetter_some {l : List Nat} {idx : Int} (h : findLetter l = some idx) :
    ∃ p : Nat, p < 33 ∧ idx = (p : Int) ∧ l = glyphAt p := by
  unfold findLetter at h
  split at h
  · rename_i pos hpos
    have h1 := List.find?_some hpos
    have h2 := List.mem_of_find?_eq_some hpos
    rw [List.mem_map] at h2
    obtain ⟨p, hp, rfl⟩ := h2
    have hp2 : p < 33 := by simpa [numAlpha] using hp
    refine ⟨p, hp2, ?_, ?_⟩
    · have := Option.some.inj h
      rw [← this]
      simp
    · simp only [beq_iff_eq] at h1
      exact h1.symm
  · exact absurd h (by simp)

theorem removeSpaces_foldl (s acc : List Nat) :
    s.foldl (fun result c => if c ≠ 32 then result ++ [c] else result) acc
      = acc ++ s.filter (fun c => decide (c ≠ 32)) := by
  induction s generalizing acc with
  | nil => simp
  | cons c cs ih =>
    rw [List.foldl_cons, ih]
    by_cases h : c = 32
    · simp [h]
    · simp [h, List.filter_cons]

theorem removeSpaces_eq_filter (s : List Nat) :
    removeSpaces s = s.filter (fun c => decide (c ≠ 32)) := by
  unfold removeSpaces
  rw [removeSpaces_foldl]
  simp

theorem indicesToText_foldl (v : List Int) (acc : List Nat) :
    v.foldl
      (fun result idx =>
        if idx ≥ 0 ∧ idx < ((numAlpha.length / 2 : Nat) : Int)
        then result ++ substr numAlpha (idx.toNat * 2) 2
        else result) acc
      = acc ++ v.flatMap glyphOf := by
  induction v generalizing acc with
  | nil => simp
  | cons idx v ih =>
    rw [List.foldl_cons, ih, List.flatMap_cons]
    unfold glyphOf glyphAt
    by_cases h : idx ≥ 0 ∧ idx < ((numAlpha.length / 2 : Nat) : Int)
    · rw [if_pos h, if_pos h, List.append_assoc]
    · rw [if_neg h, if_neg h, List.nil_append]

theorem indicesToText_eq (v : List Int) : indicesToText v = v.flatMap glyphOf := by
  unfold indicesToText
  rw [indicesToText_foldl]
  simp

theorem glyphOf_valid {idx : Int} (h : ValidIdx idx) : glyphOf idx = glyphAt idx.toNat := by
  unfold glyphOf
  rw [alphabetSize_eq]
  exact if_pos h

theorem loop_indicesToText (v : List Int) (hv : ∀ idx ∈ v, ValidIdx idx) (rest : List Nat) :
    ∀ acc, textToIndicesLoop (indicesToText v ++ rest) acc = textToIndicesLoop rest (acc ++ v) := by
  induction v with
  | nil => intro acc; simp [indicesToText_eq]
  | cons idx v ih =>
    intro acc
    have hidx := hv idx (List.mem_cons_self _ _)
    have hp : idx.toNat < 33 := by unfold ValidIdx at hidx; omega
    have hcast : ((idx.toNat : Nat) : Int) = idx := Int.toNat_of_nonneg hidx.1
    have hshape := (glyphAt_shape idx.toNat hp).1
    have hfind := findLetter_glyphAt idx.toNat hp
    rw [hshape, hcast] at hfind
    rw [indicesToText_eq, List.flatMap_cons, glyphOf_valid hidx, ← indicesToText_eq, hshape]
    simp only [List.cons_append, List.nil_append]
    rw [textToIndicesLoop, hfind]
    simp only
    rw [ih (fun x hx => hv x (List.mem_cons_of_mem _ hx)), List.append_assoc]
    rfl

theorem loop_some_aux (n : Nat) :
    ∀ (s : List Nat), s.length ≤ n → ∀ (acc r : List Int), textToIndicesLoop s acc = some r →
      ∃ v, r = acc ++ v ∧ (∀ idx ∈ v, ValidIdx idx) ∧ indicesToText v = s := by
  induction n with
  | zero =>
    intro s hs acc r h
    have hs0 : s = [] := List.length_eq_zero.mp (by omega)
    subst hs0
    simp only [textToIndicesLoop, Option.some.injEq] at h
    exact ⟨[], by simp [h], by simp, by simp [indicesToText_eq]⟩
  | succ n ih =>
    intro s hs acc r h
    match s, hs, h with
    | [], _, h =>
      simp only [textToIndicesLoop, Option.some.injEq] at h
      exact ⟨[], by simp [h], by simp, by simp [indicesToText_eq]⟩
    | [b], _, h => simp [textToIndicesLoop] at h
    | b1 :: b2 :: rest, hs, h =>
      rw [textToIndicesLoop] at h
      cases hf : findLetter [b1, b2] with
      | none => rw [hf] at h; simp at h
      | some idx =>
        rw [hf] at h
        simp only at h
        have hlen : rest.length ≤ n := by simp at hs; omega
        obtain ⟨v, hr, hv, hs2⟩ := ih rest hlen _ _ h
        obtain ⟨p, hp, hidx, hl⟩ := findLetter_some hf
        have hval : ValidIdx idx := by unfold ValidIdx; omega
        refine ⟨idx :: v, by simp [hr], ?_, ?_⟩
        · intro x hx
          rcases List.mem_cons.mp hx with rfl | hx
          · exact hval
          · exact hv x hx
        · have hp2 : idx.toNat = p := by omega
          rw [indicesToText_eq, List.flatMap_cons, glyphOf_valid hval, ← indicesToText_eq, hs2,
            hp2, ← hl]
          rfl

theorem loop_some {s : List Nat} {acc r : List Int} (h : textToIndicesLoop s acc = some r) :
    ∃ v, r = acc ++ v ∧ (∀ idx ∈ v, ValidIdx idx) ∧ indicesToText v = s :=
  loop_some_aux s.length s (Nat.le_refl _) acc r h

theorem textToIndices_eq_some {s : List Nat} {v : List Int} :
    textToIndices s = some v ↔ v ≠ [] ∧ (∀ idx ∈ v, ValidIdx idx) ∧ indicesToText v = s := by
  constructor
  · intro h
    unfold textToIndices at h
    cases hl : textToIndicesLoop s [] with
    | none => rw [hl] at h; simp at h
    | some r =>
      rw [hl] at h
      simp only at h
      obtain ⟨w, hr, hw, hs⟩ := loop_some hl
      rw [List.nil_append] at hr
      subst hr
      cases r with
      | nil => simp at h
      | cons a l =>
        simp only [List.isEmpty_cons, Bool.false_eq_true, if_false, Option.some.injEq] at h
        subst h
        exact ⟨by simp, hw, hs⟩
  · rintro ⟨hne, hv, hs⟩
    have h := loop_indicesToText v hv [] []
    rw [List.append_nil, hs, List.nil_append] at h
    unfold textToIndices
    rw [h]
    simp only [textToIndicesLoop]
    cases v with
    | nil => exact absurd rfl hne
    | cons a l => rfl

theorem textToIndices_nil : textToIndices [] = none := by decide

theorem foldl_set_spec (f : Nat → Int → Int) (w : List Int) :
    ∀ n, n ≤ w.length →
      ((List.range n).foldl (fun work i => work.set i (f i (work.getD i 0))) w).length = w.length
      ∧ ∀ i, ((List.range n).foldl (fun work i => work.set i (f i (work.getD i 0))) w)[i]?
          = if i < n then (w[i]?).map (f i) else w[i]? := by
  intro n
  induction n with
  | zero => intro _; simp
  | succ n ih =>
    intro hn
    obtain ⟨h1, h2⟩ := ih (by omega)
    rw [List.range_succ, List.foldl_append]
    simp only [List.foldl_cons, List.foldl_nil]
    refine ⟨by rw [List.length_set, h1], ?_⟩
    intro i
    rw [List.getElem?_set]
    by_cases hi : n = i
    · subst hi
      have hget : ((List.range n).foldl (fun work i => work.set i (f i (work.getD i 0))) w)[n]?
          = w[n]? := by rw [h2 n, if_neg (by omega)]
      rw [if_pos rfl, if_pos (by omega), if_pos (by omega), List.getD_eq_getElem?_getD, hget,
        List.getElem?_eq_getElem (by omega : n < w.length)]
      rfl
    · rw [if_neg hi, h2 i]
      by_cases h3 : i < n
      · rw [if_pos h3, if_pos (by omega)]
      · rw [if_neg h3, if_neg (by omega)]

theorem foldl_set_eq_mapIdx (f : Nat → Int → Int) (w : List Int) :
    (List.range w.length).foldl (fun work i => work.set i (f i (work.getD i 0))) w
      = w.mapIdx f := by
  obtain ⟨_, h2⟩ := foldl_set_spec f w w.length (Nat.le_refl _)
  apply List.ext_getElem?
  intro i
  rw [h2 i, List.getElem?_mapIdx]
  by_cases hi : i < w.length
  · rw [if_pos hi]
  · rw [if_neg hi, List.getElem?_eq_none (by omega)]
    rfl

theorem removeSpaces_ne_nil_of {T : List Nat} {t : List Int}
    (ht : textToIndices (removeSpaces T) = some t) : (removeSpaces T).isEmpty = false := by
  cases h : removeSpaces T with
  | nil => rw [h, textToIndices_nil] at ht; simp at ht
  | cons a l => rfl

theorem modAlpha_encrypt_eq (c : modAlphaCipher) {T : List Nat} {t : List Int}
    (ht : textToIndices (removeSpaces T) = some t) :
    c.encrypt T = some (indicesToText
      (t.mapIdx (fun i x => Int.tmod (x + c.key.getD (i % c.key.length) 0) 33))) := by
  unfold modAlphaCipher.encrypt
  simp only [removeSpaces_ne_nil_of ht, ht, alphabetSize_eq, Bool.false_eq_true, if_false]
  rw [foldl_set_eq_mapIdx (fun i x => Int.tmod (x + c.key.getD (i % c.key.length) 0) 33) t]

theorem modAlpha_decrypt_eq (c : modAlphaCipher) {T : List Nat} {t : List Int}
    (ht : textToIndices (removeSpaces T) = some t) :
    c.decrypt T = some (indicesToText
      (t.mapIdx (fun i x => Int.tmod (x - c.key.getD (i % c.key.length) 0 + 33) 33))) := by
  unfold modAlphaCipher.decrypt
  simp only [removeSpaces_ne_nil_of ht, ht, alphabetSize_eq, Bool.false_eq_true, if_false]
  rw [foldl_set_eq_mapIdx (fun i x => Int.tmod (x - c.key.getD (i % c.key.length) 0 + 33) 33) t]

theorem modAlpha_encrypt_none (c : modAlphaCipher) {T : List Nat}
    (ht : textToIndices (removeSpaces T) = none) : c.encrypt T = none := by
  unfold modAlphaCipher.encrypt
  simp only [ht]
  split <;> rfl

theorem modAlpha_decrypt_none (c : modAlphaCipher) {T : List Nat}
    (ht : textToIndices (removeSpaces T) = none) : c.decrypt T = none := by
  unfold modAlphaCipher.decrypt
  simp only [ht]
  split <;> rfl

theorem new_eq_some_iff {skey : List Nat} {c : modAlphaCipher} :
    modAlphaCipher.new skey = some c ↔ textToIndices (removeSpaces skey) = some c.key := by
  cases ht : textToIndices (removeSpaces skey) with
  | none =>
    unfold modAlphaCipher.new
    simp only [ht, reduceCtorEq, iff_false]
    split <;> simp
  | some key =>
    unfold modAlphaCipher.new
    simp only [removeSpaces_ne_nil_of ht, ht, Bool.false_eq_true, if_false, Option.some.injEq]
    constructor
    · intro h; rw [← h]
    · intro h; cases c; simp only at h; rw [h]

theorem mem_alphabet {g : List Nat} : g ∈ alphabet ↔ ∃ p : Nat, p < 33 ∧ g = glyphAt p := by
  unfold alphabet
  rw [List.mem_map]
  constructor
  · rintro ⟨p, hp, rfl⟩
    exact ⟨p, by simpa [numAlpha] using hp, rfl⟩
  · rintro ⟨p, hp, rfl⟩
    exact ⟨p, by simpa [numAlpha] using hp, rfl⟩

theorem glyphConcat_indices (gs : List (List Nat)) (h : ∀ g ∈ gs, g ∈ alphabet) :
    ∃ v : List Int, (∀ idx ∈ v, ValidIdx idx) ∧ indicesToText v = gs.flatten := by
  induction gs with
  | nil => exact ⟨[], by simp, by simp [indicesToText_eq]⟩
  | cons g gs ih =>
    obtain ⟨v, hv, hs⟩ := ih (fun x hx => h x (List.mem_cons_of_mem _ hx))
    obtain ⟨p, hp, rfl⟩ := mem_alphabet.mp (h g (List.mem_cons_self _ _))
    have hval : ValidIdx (p : Int) := by unfold ValidIdx; omega
    refine ⟨(p : Int) :: v, ?_, ?_⟩
    · intro x hx
      rcases List.mem_cons.mp hx with rfl | hx
      · exact hval
      · exact hv x hx
    · rw [indicesToText_eq, List.flatMap_cons, glyphOf_valid hval, ← indicesToText_eq, hs]
      simp

theorem textToIndices_isSome_iff (s : List Nat) :
    (∃ v, textToIndices s = some v) ↔ s ≠ [] ∧ IsGlyphConcat s := by
  constructor
  · rintro ⟨v, hv⟩
    refine ⟨?_, ?_⟩
    · intro h0
      rw [h0, textToIndices_nil] at hv
      simp at hv
    · obtain ⟨_, hval, hs⟩ := textToIndices_eq_some.mp hv
      refine ⟨v.map glyphOf, ?_, ?_⟩
      · intro g hg
        rw [List.mem_map] at hg
        obtain ⟨idx, hidx, rfl⟩ := hg
        have h1 := hval idx hidx
        rw [glyphOf_valid h1, mem_alphabet]
        exact ⟨idx.toNat, by unfold ValidIdx at h1; omega, rfl⟩
      · rw [← hs, indicesToText_eq, List.flatMap_def]
  · rintro ⟨hne, gs, hgs, rfl⟩
    obtain ⟨v, hv, hs⟩ := glyphConcat_indices gs hgs
    refine ⟨v, textToIndices_eq_some.mpr ⟨?_, hv, hs⟩⟩
    intro h0
    subst h0
    apply hne
    rw [← hs]
    simp [indicesToText_eq]

theorem glyphOf_bytes (idx : Int) : ∀ b ∈ glyphOf idx, b ≠ 32 ∧ b ∈ numAlpha := by
  intro b hb
  unfold glyphOf at hb
  split at hb
  · rename_i h
    rw [alphabetSize_eq] at h
    have hp : idx.toNat < 33 := by omega
    refine ⟨?_, ?_⟩
    · obtain ⟨h1, h2⟩ := glyphAt_shape idx.toNat hp
      rw [h1] at hb
      simp only [List.mem_cons, List.mem_singleton, List.not_mem_nil, or_false] at hb
      rcases hb with rfl | rfl
      · decide
      · omega
    · unfold glyphAt substr at hb
      exact List.mem_of_mem_drop (List.mem_of_mem_take hb)
  · simp at hb

theorem indicesToText_bytes (v : List Int) : ∀ b ∈ indicesToText v, b ≠ 32 ∧ b ∈ numAlpha := by
  intro b hb
  rw [indicesToText_eq, List.mem_flatMap] at hb
  obtain ⟨idx, _, h⟩ := hb
  exact glyphOf_bytes idx b h

theorem removeSpaces_indicesToText (v : List Int) :
    removeSpaces (indicesToText v) = indicesToText v := by
  rw [removeSpaces_eq_filter, List.filter_eq_self]
  intro b hb
  simpa using (indicesToText_bytes v b hb).1

theorem key_valid {skey : List Nat} {c : modAlphaCipher} (hc : modAlphaCipher.new skey = some c) :
    c.key ≠ [] ∧ ∀ j, ValidIdx (c.key.getD j 0) := by
  obtain ⟨hne, hv, _⟩ := textToIndices_eq_some.mp (new_eq_some_iff.mp hc)
  refine ⟨hne, ?_⟩
  intro j
  by_cases hj : j < c.key.length
  · rw [List.getD_eq_getElem _ _ hj]
    exact hv _ (List.getElem_mem _)
  · rw [List.getD_eq_default _ _ (by omega)]
    exact ⟨by decide, by decide⟩

theorem tmod_add_valid {x k : Int} (hx : ValidIdx x) (hk : ValidIdx k) :
    Int.tmod (x + k) 33 = (x + k) % 33 ∧ ValidIdx (Int.tmod (x + k) 33) := by
  unfold ValidIdx at *
  have h := Int.tmod_eq_emod (a := x + k) (b := 33) (by omega) (by omega)
  rw [h]
  exact ⟨rfl, by omega⟩

theorem tmod_sub_valid {x k : Int} (hx : ValidIdx x) (hk : ValidIdx k) :
    Int.tmod (x - k + 33) 33 = (x - k + 33) % 33 ∧ ValidIdx (Int.tmod (x - k + 33) 33) := by
  unfold ValidIdx at *
  have h := Int.tmod_eq_emod (a := x - k + 33) (b := 33) (by omega) (by omega)
  rw [h]
  exact ⟨rfl, by omega⟩

theorem mapIdx_valid (f : Nat → Int → Int) (t : List Int)
    (hf : ∀ i x, ValidIdx x → ValidIdx (f i x)) (ht : ∀ x ∈ t, ValidIdx x) :
    ∀ y ∈ t.mapIdx f, ValidIdx y := by
  intro y hy
  obtain ⟨i, hi⟩ := List.mem_iff_getElem?.mp hy
  rw [List.getElem?_mapIdx] at hi
  cases hx : t[i]? with
  | none => rw [hx] at hi; simp at hi
  | some x =>
    rw [hx] at hi
    simp only [Option.map_some', Option.some.injEq] at hi
    rw [← hi]
    exact hf i x (ht x (List.getElem?_mem hx))

theorem mapIdx_ne_nil (f : Nat → Int → Int) {t : List Int} (h : t ≠ []) : t.mapIdx f ≠ [] := by
  intro h0
  have := congrArg List.length h0
  rw [List.length_mapIdx] at this
  exact h (List.length_eq_zero.mp this)

theorem mapIdx_eq_range_map (f : Nat → Int → Int) (t : List Int) :
    t.mapIdx f = (List.range t.length).map (fun i => f i (t.getD i 0)) := by
  apply List.ext_getElem?
  intro i
  rw [List.getElem?_mapIdx, List.getElem?_map]
  by_cases hi : i < t.length
  · rw [List.getElem?_range hi, List.getElem?_eq_getElem hi]
    simp only [Option.map_some']
    rw [List.getD_eq_getElem _ _ hi]
  · rw [List.getElem?_eq_none (by omega), List.getElem?_eq_none (by simp; omega)]
    rfl

/-- The round trip on index sequences. -/
theorem mapIdx_decrypt_encrypt (key : List Int) (hk : ∀ j, ValidIdx (key.getD j 0))
    (t : List Int) (ht : ∀ x ∈ t, ValidIdx x) :
    (t.mapIdx (fun i x => Int.tmod (x + key.getD (i % key.length) 0) 33)).mapIdx
        (fun i x => Int.tmod (x - key.getD (i % key.length) 0 + 33) 33) = t := by
  apply List.ext_getElem?
  intro i
  rw [List.getElem?_mapIdx, List.getElem?_mapIdx]
  cases hx : t[i]? with
  | none => rfl
  | some x =>
    simp only [Option.map_some', Option.some.injEq]
    have h1 := ht x (List.getElem?_mem hx)
    have h2 := hk (i % key.length)
    obtain ⟨e1, v1⟩ := tmod_add_valid h1 h2
    obtain ⟨e2, _⟩ := tmod_sub_valid v1 h2
    rw [e2, e1]
    unfold ValidIdx at h1 h2
    omega

/-- The round trip on index sequences, in the other order. -/
theorem mapIdx_encrypt_decrypt (key : List Int) (hk : ∀ j, ValidIdx (key.getD j 0))
    (t : List Int) (ht : ∀ x ∈ t, ValidIdx x) :
    (t.mapIdx (fun i x => Int.tmod (x - key.getD (i % key.length) 0 + 33) 33)).mapIdx
        (fun i x => Int.tmod (x + key.getD (i % key.length) 0) 33) = t := by
  apply List.ext_getElem?
  intro i
  rw [List.getElem?_mapIdx, List.getElem?_mapIdx]
  cases hx : t[i]? with
  | none => rfl
  | some x =>
    simp only [Option.map_some', Option.some.injEq]
    have h1 := ht x (List.getElem?_mem hx)
    have h2 := hk (i % key.length)
    obtain ⟨e1, v1⟩ := tmod_sub_valid h1 h2
    obtain ⟨e2, _⟩ := tmod_add_valid v1 h2
    rw [e2, e1]
    unfold ValidIdx at h1 h2
    omega

theorem encrypt_decrypt_core {skey T : List Nat} {c : modAlphaCipher} {t : List Int}
    (hc : modAlphaCipher.new skey = some c) (ht : textToIndices (removeSpaces T) = some t) :
    ∃ E, c.encrypt T = some E ∧ c.decrypt E = some (removeSpaces T) := by
  obtain ⟨_, hk⟩ := key_valid hc
  obtain ⟨hne, hv, hs⟩ := textToIndices_eq_some.mp ht
  refine ⟨_, modAlpha_encrypt_eq c ht, ?_⟩
  have hv2 := mapIdx_valid (fun i x => Int.tmod (x + c.key.getD (i % c.key.length) 0) 33) t
    (fun i x hx => (tmod_add_valid hx (hk _)).2) hv
  have ht2 : textToIndices (removeSpaces (indicesToText
      (t.mapIdx (fun i x => Int.tmod (x + c.key.getD (i % c.key.length) 0) 33))))
      = some (t.mapIdx (fun i x => Int.tmod (x + c.key.getD (i % c.key.length) 0) 33)) := by
    rw [removeSpaces_indicesToText]
    exact textToIndices_eq_some.mpr ⟨mapIdx_ne_nil _ hne, hv2, rfl⟩
  rw [modAlpha_decrypt_eq c ht2, mapIdx_decrypt_encrypt c.key hk t hv, hs]

theorem succeeds_iff (c : modAlphaCipher) (T : List Nat) :
    ((∃ E, c.encrypt T = some E) ↔ ∃ t, textToIndices (removeSpaces T) = some t)
      ∧ ((∃ D, c.decrypt T = some D) ↔ ∃ t, textToIndices (removeSpaces T) = some t) := by
  cases ht : textToIndices (removeSpaces T) with
  | none => simp [modAlpha_encrypt_none c ht, modAlpha_decrypt_none c ht]
  | some t => simp [modAlpha_encrypt_eq c ht, modAlpha_decrypt_eq c ht]

theorem findLetter_lower {g : List Nat} (hg : IsLowerCyrillic g) : findLetter g = none := by
  cases hf : findLetter g with
  | none => rfl
  | some idx =>
    exfalso
    obtain ⟨p, hp, _, hl⟩ := findLetter_some hf
    obtain ⟨h1, h2⟩ := glyphAt_shape p hp
    rw [← hl] at h1 h2
    rcases hg with ⟨b, hb1, hb2, rfl⟩ | ⟨b, hb1, hb2, rfl⟩ | rfl
    · simp only [List.getD_cons_succ, List.getD_cons_zero] at h2
      omega
    · simp at h1
    · simp at h1

theorem lower_key_rejected (gs : List (List Nat)) (hne : gs ≠ [])
    (hgs : ∀ g ∈ gs, IsLowerCyrillic g) : modAlphaCipher.new gs.flatten = none := by
  have hbytes : ∀ b ∈ gs.flatten, decide (b ≠ 32) = true := by
    intro b hb
    rw [List.mem_flatten] at hb
    obtain ⟨g, hg, hbg⟩ := hb
    simp only [ne_eq, decide_not, Bool.not_eq_eq_eq_not, Bool.not_true, decide_eq_false_iff_not]
    rcases hgs g hg with ⟨x, hx1, hx2, rfl⟩ | ⟨x, hx1, hx2, rfl⟩ | rfl
    · simp only [List.mem_cons, List.mem_singleton, List.not_mem_nil, or_false] at hbg
      omega
    · simp only [List.mem_cons, List.mem_singleton, List.not_mem_nil, or_false] at hbg
      omega
    · simp only [List.mem_cons, List.mem_singleton, List.not_mem_nil, or_false] at hbg
      omega
  cases hn : modAlphaCipher.new gs.flatten with
  | none => rfl
  | some c =>
    exfalso
    have ht := new_eq_some_iff.mp hn
    rw [removeSpaces_eq_filter, List.filter_eq_self.mpr hbytes] at ht
    cases gs with
    | nil => exact hne rfl
    | cons g rest =>
      have hg := hgs g (List.mem_cons_self _ _)
      have hfl := findLetter_lower hg
      have hshape : ∃ a b, g = [a, b] := by
        rcases hg with ⟨x, _, _, rfl⟩ | ⟨x, _, _, rfl⟩ | rfl
        · exact ⟨_, _, rfl⟩
        · exact ⟨_, _, rfl⟩
        · exact ⟨_, _, rfl⟩
      obtain ⟨a, b, rfl⟩ := hshape
      unfold textToIndices at ht
      simp only [List.flatten_cons, List.cons_append, List.nil_append] at ht
      rw [textToIndicesLoop, hfl] at ht
      simp at ht

/-! ### Glyph positions in a text -/

theorem substr_flatten_pairs (xs : List (List Nat)) (h : ∀ x ∈ xs, x.length = 2) :
    ∀ i, i < xs.length → substr xs.flatten (2 * i) 2 = xs.getD i [] := by
  induction xs with
  | nil => intro i hi; simp at hi
  | cons x rest ih =>
    intro i hi
    obtain ⟨a, b, rfl⟩ := List.length_eq_two.mp (h x (List.mem_cons_self _ _))
    cases i with
    | zero => simp [substr]
    | succ i =>
      have hi2 : i < rest.length := by simpa using hi
      have := ih (fun y hy => h y (List.mem_cons_of_mem _ hy)) i hi2
      unfold substr at this ⊢
      have e : 2 * (i + 1) = 2 * i + 1 + 1 := by ring
      rw [e]
      simpa using this

theorem length_flatten_pairs (xs : List (List Nat)) (h : ∀ x ∈ xs, x.length = 2) :
    xs.flatten.length = 2 * xs.length := by
  induction xs with
  | nil => simp
  | cons x rest ih =>
    rw [List.flatten_cons, List.length_append, ih (fun y hy => h y (List.mem_cons_of_mem _ hy)),
      h x (List.mem_cons_self _ _), List.length_cons]
    ring

theorem glyphOf_length {idx : Int} (h : ValidIdx idx) : (glyphOf idx).length = 2 := by
  rw [glyphOf_valid h]
  have hp : idx.toNat < 33 := by unfold ValidIdx at h; omega
  rw [(glyphAt_shape idx.toNat hp).1]
  rfl

theorem indicesToText_length (w : List Int) (hw : ∀ x ∈ w, ValidIdx x) :
    (indicesToText w).length = 2 * w.length := by
  rw [indicesToText_eq, List.flatMap_def, length_flatten_pairs, List.length_map]
  intro x hx
  rw [List.mem_map] at hx
  obtain ⟨idx, hidx, rfl⟩ := hx
  exact glyphOf_length (hw idx hidx)

theorem indicesToText_substr (w : List Int) (hw : ∀ x ∈ w, ValidIdx x) (i : Nat)
    (hi : i < w.length) : substr (indicesToText w) (2 * i) 2 = glyphAt (w.getD i 0).toNat := by
  have hx : ValidIdx (w.getD i 0) := by
    rw [List.getD_eq_getElem _ _ hi]
    exact hw _ (List.getElem_mem _)
  rw [indicesToText_eq, List.flatMap_def, substr_flatten_pairs _ _ i (by simpa using hi)]
  · rw [List.getD_eq_getElem _ _ (by simpa using hi), List.getElem_map, ← glyphOf_valid hx,
      List.getD_eq_getElem _ _ hi]
  · intro x hx2
    rw [List.mem_map] at hx2
    obtain ⟨idx, hidx, rfl⟩ := hx2
    exact glyphOf_length (hw idx hidx)

/-! ### Dependence on the cleaned input only -/

theorem removeSpaces_filter (T : List Nat) :
    removeSpaces (T.filter (fun b => decide (b ≠ 32))) = removeSpaces T := by
  rw [removeSpaces_eq_filter, removeSpaces_eq_filter, List.filter_filter]
  simp

theorem encrypt_congr (c : modAlphaCipher) {T1 T2 : List Nat}
    (h : removeSpaces T1 = removeSpaces T2) : c.encrypt T1 = c.encrypt T2 := by
  unfold modAlphaCipher.encrypt
  rw [h]

theorem decrypt_congr (c : modAlphaCipher) {T1 T2 : List Nat}
    (h : removeSpaces T1 = removeSpaces T2) : c.decrypt T1 = c.decrypt T2 := by
  unfold modAlphaCipher.decrypt
  rw [h]

theorem new_congr {K1 K2 : List Nat} (h : removeSpaces K1 = removeSpaces K2) :
    modAlphaCipher.new K1 = modAlphaCipher.new K2 := by
  unfold modAlphaCipher.new
  rw [h]

theorem bad_byte_fails {T : List Nat} (h : ∃ b ∈ T, b ≠ 32 ∧ b ∉ numAlpha) :
    textToIndices (removeSpaces T) = none := by
  obtain ⟨b, hbT, hb32, hbA⟩ := h
  cases ht : textToIndices (removeSpaces T) with
  | none => rfl
  | some t =>
    exfalso
    obtain ⟨_, _, hs⟩ := textToIndices_eq_some.mp ht
    have hmem : b ∈ removeSpaces T := by
      rw [removeSpaces_eq_filter, List.mem_filter]
      exact ⟨hbT, by simpa using hb32⟩
    rw [← hs] at hmem
    exact hbA (indicesToText_bytes t b hmem).2

/-! ### Keys of one repeated glyph -/

theorem getD_replicate_mod (m : Nat) (p : Int) (hm : 1 ≤ m) (i : Nat) :
    (List.replicate m p).getD (i % (List.replicate m p).length) 0 = p := by
  have hlt : i % (List.replicate m p).length < (List.replicate m p).length := by
    apply Nat.mod_lt
    simp only [List.length_replicate]
    omega
  rw [List.getD_eq_getElem _ _ hlt, List.getElem_replicate]

theorem new_replicate (p m : Nat) (hp : p < 33) (hm : 1 ≤ m) :
    modAlphaCipher.new (List.replicate m (glyphAt p)).flatten
      = some { key := List.replicate m (p : Int) } := by
  rw [new_eq_some_iff]
  have hval : ValidIdx (p : Int) := by unfold ValidIdx; omega
  have hs : indicesToText (List.replicate m (p : Int)) = (List.replicate m (glyphAt p)).flatten := by
    rw [indicesToText_eq, List.flatMap_def, List.map_replicate, glyphOf_valid hval]
    simp
  rw [← hs, removeSpaces_indicesToText]
  refine textToIndices_eq_some.mpr ⟨?_, ?_, rfl⟩
  · intro h0
    have := congrArg List.length h0
    simp only [List.length_replicate, List.length_nil] at this
    omega
  · intro x hx
    rw [List.eq_of_mem_replicate hx]
    exact hval

theorem mapIdx_const_key (key : List Int) (p : Int) (g : Int → Int → Int)
    (hk : ∀ i, key.getD (i % key.length) 0 = p) (t : List Int) :
    t.mapIdx (fun i x => g x (key.getD (i % key.length) 0)) = t.map (fun x => g x p) := by
  apply List.ext_getElem?
  intro i
  rw [List.getElem?_mapIdx, List.getElem?_map, hk i]

/-! ### The other round trip and output sizes -/

theorem decrypt_valid (c : modAlphaCipher) (hk : ∀ j, ValidIdx (c.key.getD j 0)) (t : List Int)
    (hv : ∀ x ∈ t, ValidIdx x) :
    ∀ y ∈ t.mapIdx (fun i x => Int.tmod (x - c.key.getD (i % c.key.length) 0 + 33) 33),
      ValidIdx y :=
  mapIdx_valid (fun i x => Int.tmod (x - c.key.getD (i % c.key.length) 0 + 33) 33) t
    (fun _ _ hx => (tmod_sub_valid hx (hk _)).2) hv

theorem encrypt_valid (c : modAlphaCipher) (hk : ∀ j, ValidIdx (c.key.getD j 0)) (t : List Int)
    (hv : ∀ x ∈ t, ValidIdx x) :
    ∀ y ∈ t.mapIdx (fun i x => Int.tmod (x + c.key.getD (i % c.key.length) 0) 33),
      ValidIdx y :=
  mapIdx_valid (fun i x => Int.tmod (x + c.key.getD (i % c.key.length) 0) 33) t
    (fun _ _ hx => (tmod_add_valid hx (hk _)).2) hv

theorem decrypt_encrypt_core {skey T : List Nat} {c : modAlphaCipher} {t : List Int}
    (hc : modAlphaCipher.new skey = some c) (ht : textToIndices (removeSpaces T) = some t) :
    ∃ D, c.decrypt T = some D ∧ c.encrypt D = some (removeSpaces T)
      ∧ D.length = (removeSpaces T).length := by
  obtain ⟨_, hk⟩ := key_valid hc
  obtain ⟨hne, hv, hs⟩ := textToIndices_eq_some.mp ht
  have hv2 := decrypt_valid c hk t hv
  refine ⟨_, modAlpha_decrypt_eq c ht, ?_, ?_⟩
  · have ht2 : textToIndices (removeSpaces (indicesToText
        (t.mapIdx (fun i x => Int.tmod (x - c.key.getD (i % c.key.length) 0 + 33) 33))))
        = some (t.mapIdx (fun i x => Int.tmod (x - c.key.getD (i % c.key.length) 0 + 33) 33)) := by
      rw [removeSpaces_indicesToText]
      exact textToIndices_eq_some.mpr ⟨mapIdx_ne_nil _ hne, hv2, rfl⟩
    rw [modAlpha_encrypt_eq c ht2, mapIdx_encrypt_decrypt c.key hk t hv, hs]
  · rw [indicesToText_length _ hv2, List.length_mapIdx, ← hs, indicesToText_length _ hv]

theorem output_lengths {skey T : List Nat} {c : modAlphaCipher} {t : List Int}
    (hc : modAlphaCipher.new skey = some c) (ht : textToIndices (removeSpaces T) = some t) :
    ∃ E D, c.encrypt T = some E ∧ c.decrypt T = some D
      ∧ E.length = 2 * t.length ∧ D.length = 2 * t.length
      ∧ (removeSpaces T).length = 2 * t.length := by
  obtain ⟨_, hk⟩ := key_valid hc
  obtain ⟨_, hv, hs⟩ := textToIndices_eq_some.mp ht
  refine ⟨_, _, modAlpha_encrypt_eq c ht, modAlpha_decrypt_eq c ht, ?_, ?_, ?_⟩
  · rw [indicesToText_length _ (encrypt_valid c hk t hv), List.length_mapIdx]
  · rw [indicesToText_length _ (decrypt_valid c hk t hv), List.length_mapIdx]
  · rw [← hs, indicesToText_length _ hv]

theorem getD_valid {t : List Int} (hv : ∀ x ∈ t, ValidIdx x) {i : Nat} (hi : i < t.length) :
    ValidIdx (t.getD i 0) := by
  rw [List.getD_eq_getElem _ _ hi]
  exact hv _ (List.getElem_mem _)

/-! ## Claims about `modAlphaCipher` -/

/-- C2. Gronsfeld round trip. For every key phrase accepted by the constructor and
every text `T` that after removing the spaces is a non-empty concatenation of alphabet
glyphs, `encrypt T` succeeds and `decrypt` of its result succeeds and equals `T` with
its spaces removed, which is `T` itself when `T` has no space. -/
theorem C2_gronsfeld_round_trip (skey T : List Nat) (c : modAlphaCipher)
    (hc : modAlphaCipher.new skey = some c)
    (hne : T.filter (fun b => decide (b ≠ 32)) ≠ [])
    (hT : IsGlyphConcat (T.filter (fun b => decide (b ≠ 32)))) :
    ∃ E, c.encrypt T = some E
      ∧ c.decrypt E = some (T.filter (fun b => decide (b ≠ 32)))
      ∧ ((∀ b ∈ T, b ≠ 32) → c.decrypt E = some T) := by
  obtain ⟨t, ht⟩ := (textToIndices_isSome_iff _).mpr ⟨hne, hT⟩
  rw [← removeSpaces_eq_filter] at ht
  obtain ⟨E, h1, h2⟩ := encrypt_decrypt_core hc ht
  rw [removeSpaces_eq_filter] at h2
  refine ⟨E, h1, h2, ?_⟩
  intro hb
  rw [h2, List.filter_eq_self.mpr (fun b hbT => by simpa using hb b hbT)]

/-- The test 4.2 of `src/main.cpp`: with the key `"Я"` the text `"А"` survives the round
trip. -/
theorem C2_gronsfeld_round_trip_witness :
    ∃ c E, modAlphaCipher.new (str "Я") = some c ∧ c.encrypt (str "А") = some E
      ∧ c.decrypt E = some (str "А") := by
  obtain ⟨E, h1, _, h3⟩ := C2_gronsfeld_round_trip (str "Я") (str "А") ⟨[32]⟩ (by decide)
    (by decide) ⟨[str "А"], by decide, by decide⟩
  exact ⟨⟨[32]⟩, E, by decide, h1, h3 (by decide)⟩

/-- C6. For every constructed cipher, `encrypt T` and `decrypt T` succeed exactly when
the cleaned text (`T` without its spaces, which is all that `removeSpaces` deletes) is a
non-empty concatenation of alphabet glyphs; hence they throw when `T` is empty, becomes
empty after cleaning, or keeps after cleaning a byte that does not occur in the
alphabet. -/
theorem C6_gronsfeld_invalid_text (skey T : List Nat) (c : modAlphaCipher)
    (hc : modAlphaCipher.new skey = some c) :
    ((∃ E, c.encrypt T = some E) ↔
        (T.filter (fun b => decide (b ≠ 32)) ≠ []
          ∧ IsGlyphConcat (T.filter (fun b => decide (b ≠ 32)))))
      ∧ ((∃ D, c.decrypt T = some D) ↔
        (T.filter (fun b => decide (b ≠ 32)) ≠ []
          ∧ IsGlyphConcat (T.filter (fun b => decide (b ≠ 32)))))
      ∧ ((T = [] ∨ T.filter (fun b => decide (b ≠ 32)) = []
            ∨ ∃ b ∈ T, b ≠ 32 ∧ b ∉ numAlpha) →
          c.encrypt T = none ∧ c.decrypt T = none) := by
  have _ := hc
  obtain ⟨h1, h2⟩ := succeeds_iff c T
  rw [removeSpaces_eq_filter, textToIndices_isSome_iff] at h1 h2
  refine ⟨h1, h2, ?_⟩
  intro hbad
  have hno : ¬ (T.filter (fun b => decide (b ≠ 32)) ≠ []
      ∧ IsGlyphConcat (T.filter (fun b => decide (b ≠ 32)))) := by
    rintro ⟨hne, hcat⟩
    rcases hbad with h | h | ⟨b, hbT, hb32, hbA⟩
    · subst h; exact hne rfl
    · exact hne h
    · obtain ⟨t, ht⟩ := (textToIndices_isSome_iff _).mpr ⟨hne, hcat⟩
      obtain ⟨_, _, hs⟩ := textToIndices_eq_some.mp ht
      have hmem : b ∈ T.filter (fun b => decide (b ≠ 32)) := by
        rw [List.mem_filter]
        exact ⟨hbT, by simpa using hb32⟩
      rw [← hs] at hmem
      exact hbA (indicesToText_bytes t b hmem).2
  constructor
  · cases he : c.encrypt T with
    | none => rfl
    | some E => exact absurd (h1.mp ⟨E, he⟩) hno
  · cases hd : c.decrypt T with
    | none => rfl
    | some D => exact absurd (h2.mp ⟨D, hd⟩) hno

/-- The tests 2.4, 2.5, 3.3 and 3.4 of `src/main.cpp`: under the key `"КЛЮЧ"` the texts
`""`, `"HELLO"` and `"ABC"` are rejected. -/
theorem C6_gronsfeld_invalid_text_witness :
    ∃ c, modAlphaCipher.new (str "КЛЮЧ") = some c
      ∧ c.encrypt (str "") = none ∧ c.encrypt (str "HELLO") = none
      ∧ c.decrypt (str "ABC") = none ∧ c.decrypt (str "") = none := by
  have hc : modAlphaCipher.new (str "КЛЮЧ") = some ⟨[11, 12, 31, 24]⟩ := by decide
  exact ⟨_, hc,
    ((C6_gronsfeld_invalid_text (str "КЛЮЧ") (str "") _ hc).2.2 (Or.inl (by decide))).1,
    ((C6_gronsfeld_invalid_text (str "КЛЮЧ") (str "HELLO") _ hc).2.2
      (Or.inr (Or.inr ⟨72, by decide, by decide, by decide⟩))).1,
    ((C6_gronsfeld_invalid_text (str "КЛЮЧ") (str "ABC") _ hc).2.2
      (Or.inr (Or.inr ⟨65, by decide, by decide, by decide⟩))).2,
    ((C6_gronsfeld_invalid_text (str "КЛЮЧ") (str "") _ hc).2.2 (Or.inl (by decide))).2⟩

/-- C7. Construction throws exactly when the key phrase, after cleaning (removal of its
spaces), is empty or is not a concatenation of glyphs of the fixed uppercase alphabet.
In particular `""` and `"ABC"` are rejected and, the key not being case-folded, so is
every key phrase made of lowercase Cyrillic letters. -/
theorem C7_gronsfeld_key_validation (skey : List Nat) :
    (modAlphaCipher.new skey = none ↔
        (skey.filter (fun b => decide (b ≠ 32)) = []
          ∨ ¬ IsGlyphConcat (skey.filter (fun b => decide (b ≠ 32)))))
      ∧ modAlphaCipher.new (str "") = none
      ∧ modAlphaCipher.new (str "ABC") = none
      ∧ ((∃ gs : List (List Nat), gs ≠ [] ∧ (∀ g ∈ gs, IsLowerCyrillic g) ∧ skey = gs.flatten) →
          modAlphaCipher.new skey = none) := by
  refine ⟨?_, by decide, by decide, ?_⟩
  · have h := textToIndices_isSome_iff (skey.filter (fun b => decide (b ≠ 32)))
    rw [← removeSpaces_eq_filter] at h ⊢
    constructor
    · intro hn
      by_contra hcon
      push_neg at hcon
      obtain ⟨t, ht⟩ := h.mpr hcon
      have := new_eq_some_iff (c := ⟨t⟩).mpr ht
      rw [hn] at this
      exact absurd this (by simp)
    · intro hbad
      cases hn : modAlphaCipher.new skey with
      | none => rfl
      | some c =>
        exfalso
        obtain ⟨h1, h2⟩ := h.mp ⟨c.key, new_eq_some_iff.mp hn⟩
        rcases hbad with hb | hb
        · exact h1 hb
        · exact hb h2
  · rintro ⟨gs, hne, hgs, rfl⟩
    exact lower_key_rejected gs hne hgs

/-- The lowercase key phrase `"ключ"` is rejected. -/
theorem C7_gronsfeld_key_validation_witness : modAlphaCipher.new (str "ключ") = none :=
  (C7_gronsfeld_key_validation (str "ключ")).2.2.2
    ⟨[str "к", str "л", str "ю", str "ч"], by decide,
      by
        intro g hg
        simp only [List.mem_cons, List.mem_singleton, List.not_mem_nil, or_false] at hg
        rcases hg with rfl | rfl | rfl | rfl
        · exact Or.inl ⟨0xBA, by decide, by decide, by decide⟩
        · exact Or.inl ⟨0xBB, by decide, by decide, by decide⟩
        · exact Or.inr (Or.inl ⟨0x8E, by decide, by decide, by decide⟩)
        · exact Or.inr (Or.inl ⟨0x87, by decide, by decide, by decide⟩),
      by decide⟩

/-- C10, as stated, fails: the modulus of `encrypt` is the number of glyphs of
`numAlpha`, which is 33 and not 32. With the key `"Б"` (index 1) the text `"Я"`
(index 32) is encrypted to `"А"` (index 0 = 33 mod 33), whereas the formula with
modulus 32 gives index 1, the glyph `"Б"`. -/
theorem C10_gronsfeld_encrypt_mod32_counterexample :
    ¬ (∀ (skey T : List Nat) (c : modAlphaCipher) (t : List Int),
        modAlphaCipher.new skey = some c →
        textToIndices (T.filter (fun b => decide (b ≠ 32))) = some t →
        c.encrypt T = some ((List.range t.length).flatMap
          (fun i => glyphAt ((t.getD i 0 + c.key.getD (i % c.key.length) 0) % 32).toNat))) := by
  intro h
  have h1 := h (str "Б") (str "Я") ⟨[1]⟩ [32] (by decide) (by decide)
  revert h1
  decide

/-- C10, amended. For every accepted key and every valid text with index sequence `t`,
`encrypt` succeeds and its output is the concatenation, over the positions `i` of `t`, of
the alphabet glyph with index `(t[i] + key[i mod keyLength]) mod 33`. -/
theorem C10_gronsfeld_encrypt_formula (skey T : List Nat) (c : modAlphaCipher) (t : List Int)
    (hc : modAlphaCipher.new skey = some c)
    (ht : textToIndices (T.filter (fun b => decide (b ≠ 32))) = some t) :
    c.encrypt T = some ((List.range t.length).flatMap
      (fun i => glyphAt ((t.getD i 0 + c.key.getD (i % c.key.length) 0) % 33).toNat)) := by
  obtain ⟨_, hk⟩ := key_valid hc
  rw [← removeSpaces_eq_filter] at ht
  obtain ⟨_, hv, _⟩ := textToIndices_eq_some.mp ht
  rw [modAlpha_encrypt_eq c ht, indicesToText_eq, mapIdx_eq_range_map, List.flatMap_def, List.map_map,
    List.flatMap_def]
  congr 2
  apply List.map_congr_left
  intro i hi
  have hi2 : i < t.length := List.mem_range.mp hi
  have hx : ValidIdx (t.getD i 0) := by
    rw [List.getD_eq_getElem _ _ hi2]
    exact hv _ (List.getElem_mem _)
  obtain ⟨e1, v1⟩ := tmod_add_valid hx (hk (i % c.key.length))
  simp only [Function.comp]
  rw [glyphOf_valid v1, e1]

/-- With the key `"Б"` the text `"Я"` is encrypted to the glyph of index
`(32 + 1) mod 33 = 0`, that is `"А"`. -/
theorem C10_gronsfeld_encrypt_formula_witness :
    (modAlphaCipher.mk [1]).encrypt (str "Я") = some (str "А") := by
  have h := C10_gronsfeld_encrypt_formula (str "Б") (str "Я") ⟨[1]⟩ [32] (by decide) (by decide)
  rw [h]
  decide

/-- C11. Gronsfeld `encrypt` adds the message and key indices modulo the size of the
alphabet constant. For every accepted key and every valid text with index sequence `t`,
`encrypt` succeeds with one two-byte glyph per index, and the glyph at position `i` is the
alphabet glyph with index `(t[i] + key[i mod keyLength]) mod N`, where `N` is the number
of glyphs of `numAlpha`; that index lies in `[0, N)`. -/
theorem C11_gronsfeld_encrypt_mod_alphabet (skey T : List Nat) (c : modAlphaCipher)
    (t : List Int) (i : Nat) (hc : modAlphaCipher.new skey = some c)
    (ht : textToIndices (T.filter (fun b => decide (b ≠ 32))) = some t) (hi : i < t.length) :
    ∃ E, c.encrypt T = some E ∧ E.length = 2 * t.length
      ∧ substr E (2 * i) 2
          = glyphAt ((t.getD i 0 + c.key.getD (i % c.key.length) 0)
              % ((numAlpha.length / 2 : Nat) : Int)).toNat
      ∧ 0 ≤ (t.getD i 0 + c.key.getD (i % c.key.length) 0) % ((numAlpha.length / 2 : Nat) : Int)
      ∧ (t.getD i 0 + c.key.getD (i % c.key.length) 0) % ((numAlpha.length / 2 : Nat) : Int)
          < ((numAlpha.length / 2 : Nat) : Int)
      ∧ glyphAt ((t.getD i 0 + c.key.getD (i % c.key.length) 0)
              % ((numAlpha.length / 2 : Nat) : Int)).toNat ∈ alphabet := by
  obtain ⟨_, hk⟩ := key_valid hc
  rw [← removeSpaces_eq_filter] at ht
  obtain ⟨_, hv, _⟩ := textToIndices_eq_some.mp ht
  have hw := mapIdx_valid (fun i x => Int.tmod (x + c.key.getD (i % c.key.length) 0) 33) t
    (fun i x hx => (tmod_add_valid hx (hk _)).2) hv
  have hx : ValidIdx (t.getD i 0) := by
    rw [List.getD_eq_getElem _ _ hi]
    exact hv _ (List.getElem_mem _)
  obtain ⟨e1, v1⟩ := tmod_add_valid hx (hk (i % c.key.length))
  have hget : (t.mapIdx (fun i x => Int.tmod (x + c.key.getD (i % c.key.length) 0) 33)).getD i 0
      = (t.getD i 0 + c.key.getD (i % c.key.length) 0) % 33 := by
    rw [List.getD_eq_getElem?_getD, List.getElem?_mapIdx, List.getElem?_eq_getElem hi,
      List.getD_eq_getElem _ _ hi]
    simp only [Option.map_some', Option.getD_some]
    rw [List.getD_eq_getElem _ _ hi] at e1
    exact e1
  rw [alphabetSize_eq]
  rw [e1] at v1
  refine ⟨_, modAlpha_encrypt_eq c ht, ?_, ?_, v1.1, v1.2, ?_⟩
  · rw [indicesToText_length _ hw, List.length_mapIdx]
  · rw [indicesToText_substr _ hw i (by rw [List.length_mapIdx]; exact hi), hget]
  · rw [mem_alphabet]
    exact ⟨_, by unfold ValidIdx at v1; omega, rfl⟩

/-- With the key `"Я"` (index 32) the text `"АБ"` is encrypted to a text whose glyph at
position 1 has index `(1 + 32) mod 33 = 0`, the glyph `"А"`. -/
theorem C11_gronsfeld_encrypt_mod_alphabet_witness :
    ∃ E, (modAlphaCipher.mk [32]).encrypt (str "АБ") = some E ∧ substr E 2 2 = str "А" := by
  obtain ⟨E, h1, _, h3, _⟩ := C11_gronsfeld_encrypt_mod_alphabet (str "Я") (str "АБ") ⟨[32]⟩
    [0, 1] 1 (by decide) (by decide) (by decide)
  exact ⟨E, h1, by rw [h3]; decide⟩

/-- C12, as stated, fails: the alphabet of `numAlpha` does not have 32 glyphs. -/
theorem C12_gronsfeld_alphabet_32_counterexample :
    ¬ (alphabet.length = 32 ∧ alphabet.Nodup ∧ numAlpha.length / 2 = 32) := by
  decide

/-- C12, amended. The fixed alphabet is the ordered sequence of the two-byte glyphs of
`numAlpha`; it has exactly 33 glyphs (`А`..`Я` with `Ё` at index 6), all pairwise
distinct, and the alphabet size used as the modulus, `numAlpha.size() / 2`, is 33. -/
theorem C12_gronsfeld_alphabet :
    alphabet.flatten = numAlpha ∧ alphabet.length = 33 ∧ alphabet.Nodup
      ∧ numAlpha.length / 2 = 33 ∧ (∀ g ∈ alphabet, g.length = 2)
      ∧ alphabet.getD 6 [] = str "Ё" := by
  decide

/-- C13, as stated, fails: the key phrase `"Я"` is accepted and its stored key is `[32]`,
which is not within `[0, 31]`. -/
theorem C13_gronsfeld_key_invariant_31_counterexample :
    ¬ (∀ (skey : List Nat) (c : modAlphaCipher), modAlphaCipher.new skey = some c →
        1 ≤ c.key.length ∧ ∀ k ∈ c.key, 0 ≤ k ∧ k ≤ 31) := by
  intro h
  have h1 := (h (str "Я") ⟨[32]⟩ (by decide)).2 32 (by decide)
  omega

/-- C13, amended. For every key phrase accepted by the constructor, the stored key has
length at least 1 and every element lies in `[0, 32]`. -/
theorem C13_gronsfeld_key_invariant (skey : List Nat) (c : modAlphaCipher)
    (hc : modAlphaCipher.new skey = some c) :
    1 ≤ c.key.length ∧ ∀ k ∈ c.key, 0 ≤ k ∧ k ≤ 32 := by
  obtain ⟨hne, hv, _⟩ := textToIndices_eq_some.mp (new_eq_some_iff.mp hc)
  refine ⟨List.length_pos.mpr hne, ?_⟩
  intro k hk
  have := hv k hk
  unfold ValidIdx at this
  omega

/-- The test 4.2 of `src/main.cpp`: the key `"Я"` is stored as `[32]`. -/
theorem C13_gronsfeld_key_invariant_witness :
    modAlphaCipher.new (str "Я") = some ⟨[32]⟩
      ∧ 1 ≤ (modAlphaCipher.mk [32]).key.length
      ∧ ∀ k ∈ (modAlphaCipher.mk [32]).key, 0 ≤ k ∧ k ≤ 32 :=
  ⟨by decide, C13_gronsfeld_key_invariant (str "Я") ⟨[32]⟩ (by decide)⟩

/-- C17. Gronsfeld `encrypt` is invariant to spaces. For every accepted key and every
text `T`, `encrypt T` and `encrypt` of `T` with all its spaces removed have the same
outcome: the same ciphertext, or both throw. -/
theorem C17_gronsfeld_space_invariance (skey T : List Nat) (c : modAlphaCipher)
    (hc : modAlphaCipher.new skey = some c) :
    c.encrypt T = c.encrypt (T.filter (fun b => decide (b ≠ 32))) := by
  have _ := hc
  exact encrypt_congr c (removeSpaces_filter T).symm

/-- The test 2.2 of `src/main.cpp`: under the key `"КЛЮЧ"`,
`encrypt("ПРИВЕТ МИР") = encrypt("ПРИВЕТМИР")`. -/
theorem C17_gronsfeld_space_invariance_witness :
    (modAlphaCipher.mk [11, 12, 31, 24]).encrypt (str "ПРИВЕТ МИР")
      = (modAlphaCipher.mk [11, 12, 31, 24]).encrypt (str "ПРИВЕТМИР") := by
  have h := C17_gronsfeld_space_invariance (str "КЛЮЧ") (str "ПРИВЕТ МИР") ⟨[11, 12, 31, 24]⟩
    (by decide)
  rw [h]
  have e : (str "ПРИВЕТ МИР").filter (fun b => decide (b ≠ 32)) = str "ПРИВЕТМИР" := by decide
  rw [e]

/-- C18, as stated, fails: a horizontal tab between two glyphs is not stripped. Under the
key `"Б"`, `encrypt` of `"А\tБ"` throws although `"АБ"` is a valid text. -/
theorem C18_gronsfeld_four_controls_counterexample :
    ¬ (∀ (skey T T2 : List Nat) (c : modAlphaCipher), modAlphaCipher.new skey = some c →
        T ≠ [] → IsGlyphConcat T →
        T2.filter (fun b => decide (b ≠ 32 ∧ b ≠ 9 ∧ b ≠ 10 ∧ b ≠ 13)) = T →
        ∃ E, c.encrypt T2 = some E ∧ c.encrypt T = some E) := by
  intro h
  obtain ⟨E, h1, _⟩ := h (str "Б") (str "АБ") [208, 144, 9, 208, 145] ⟨[1]⟩ (by decide)
    (by decide) ⟨[str "А", str "Б"], by decide, by decide⟩ (by decide)
  have hn : (modAlphaCipher.mk [1]).encrypt [208, 144, 9, 208, 145] = none := by decide
  rw [hn] at h1
  exact absurd h1 (by simp)

/-- C18, amended. Gronsfeld cleaning strips the space character only. For every accepted
key, every non-empty alphabet-only text `T` and every text `T2` obtained from `T` by
inserting space characters, `encrypt T2` succeeds and equals `encrypt T`, and likewise
for `decrypt`; a text that contains a horizontal tab, a line feed or a carriage return
is rejected by both. -/
theorem C18_gronsfeld_cleaning (skey T T2 : List Nat) (c : modAlphaCipher)
    (hc : modAlphaCipher.new skey = some c) (hne : T ≠ []) (hT : IsGlyphConcat T)
    (hins : T2.filter (fun b => decide (b ≠ 32)) = T) :
    (∃ E, c.encrypt T2 = some E ∧ c.encrypt T = some E)
      ∧ (∃ D, c.decrypt T2 = some D ∧ c.decrypt T = some D)
      ∧ (∀ T3 : List Nat, (∃ b ∈ T3, b = 9 ∨ b = 10 ∨ b = 13) →
          c.encrypt T3 = none ∧ c.decrypt T3 = none) := by
  have _ := hc
  have hclean : removeSpaces T2 = removeSpaces T := by
    rw [← hins, removeSpaces_filter]
  obtain ⟨t, ht⟩ := (textToIndices_isSome_iff T).mpr ⟨hne, hT⟩
  have hTT : removeSpaces T = T := by
    rw [← hins, removeSpaces_eq_filter, List.filter_filter]
    simp
  rw [← hTT] at ht
  refine ⟨⟨_, ?_, modAlpha_encrypt_eq c ht⟩, ⟨_, ?_, modAlpha_decrypt_eq c ht⟩, ?_⟩
  · rw [encrypt_congr c hclean]; exact modAlpha_encrypt_eq c ht
  · rw [decrypt_congr c hclean]; exact modAlpha_decrypt_eq c ht
  · rintro T3 ⟨b, hb, hb2⟩
    have hbad : ∃ b ∈ T3, b ≠ 32 ∧ b ∉ numAlpha := by
      refine ⟨b, hb, ?_⟩
      rcases hb2 with rfl | rfl | rfl <;> decide
    have hnone := bad_byte_fails hbad
    exact ⟨modAlpha_encrypt_none c hnone, modAlpha_decrypt_none c hnone⟩

/-- Under the key `"Б"`: `"А Б"` is encrypted as `"АБ"` is, and `"А\tБ"` is rejected. -/
theorem C18_gronsfeld_cleaning_witness :
    (∃ E, (modAlphaCipher.mk [1]).encrypt [208, 144, 32, 208, 145] = some E
        ∧ (modAlphaCipher.mk [1]).encrypt (str "АБ") = some E)
      ∧ (modAlphaCipher.mk [1]).encrypt [208, 144, 9, 208, 145] = none := by
  obtain ⟨h1, _, h3⟩ := C18_gronsfeld_cleaning (str "Б") (str "АБ") [208, 144, 32, 208, 145]
    ⟨[1]⟩ (by decide) (by decide) ⟨[str "А", str "Б"], by decide, by decide⟩ (by decide)
  exact ⟨h1, (h3 [208, 144, 9, 208, 145] ⟨9, by decide, Or.inl rfl⟩).1⟩

/-- C19. A repeated-glyph key is a fixed shift. For every alphabet glyph `g` (of index
`p`), every `m ≥ 1` and every text `T`, the key of `m` copies of `g` and the key `g` are
both accepted and their ciphers encrypt and decrypt `T` identically; on a valid text with
index sequence `t`, `encrypt` shifts every index by `p` modulo the alphabet size 33, and
`decrypt` shifts it back. -/
theorem C19_gronsfeld_repeated_key (p m : Nat) (T : List Nat) (hp : p < 33) (hm : 1 ≤ m) :
    glyphAt p ∈ alphabet
      ∧ ∃ c1 cm, modAlphaCipher.new (glyphAt p) = some c1
        ∧ modAlphaCipher.new (List.replicate m (glyphAt p)).flatten = some cm
        ∧ cm.encrypt T = c1.encrypt T ∧ cm.decrypt T = c1.decrypt T
        ∧ (∀ t, textToIndices (T.filter (fun b => decide (b ≠ 32))) = some t →
            cm.encrypt T = some (t.flatMap (fun x => glyphAt ((x + (p : Int)) % 33).toNat))
            ∧ cm.decrypt T = some (t.flatMap (fun x => glyphAt ((x - (p : Int)) % 33).toNat))) := by
  have hval : ValidIdx (p : Int) := by unfold ValidIdx; omega
  have h1 : modAlphaCipher.new (glyphAt p) = some { key := List.replicate 1 (p : Int) } := by
    have := new_replicate p 1 hp (Nat.le_refl 1)
    simpa using this
  have hkm := getD_replicate_mod m (p : Int) hm
  have hk1 := getD_replicate_mod 1 (p : Int) (Nat.le_refl 1)
  have hshift : ∀ (k : Nat), 1 ≤ k → ∀ t, textToIndices (removeSpaces T) = some t →
      (modAlphaCipher.mk (List.replicate k (p : Int))).encrypt T
          = some (t.flatMap (fun x => glyphAt ((x + (p : Int)) % 33).toNat))
        ∧ (modAlphaCipher.mk (List.replicate k (p : Int))).decrypt T
          = some (t.flatMap (fun x => glyphAt ((x - (p : Int)) % 33).toNat)) := by
    intro k hk t ht
    obtain ⟨_, hv, _⟩ := textToIndices_eq_some.mp ht
    have hkk := getD_replicate_mod k (p : Int) hk
    constructor
    · rw [modAlpha_encrypt_eq _ ht,
        mapIdx_const_key (List.replicate k (p : Int)) p (fun x q => Int.tmod (x + q) 33) hkk,
        indicesToText_eq, List.flatMap_def, List.map_map, List.flatMap_def]
      congr 2
      apply List.map_congr_left
      intro x hx
      obtain ⟨e1, v1⟩ := tmod_add_valid (hv x hx) hval
      simp only [Function.comp]
      rw [glyphOf_valid v1, e1]
    · rw [modAlpha_decrypt_eq _ ht,
        mapIdx_const_key (List.replicate k (p : Int)) p (fun x q => Int.tmod (x - q + 33) 33) hkk,
        indicesToText_eq, List.flatMap_def, List.map_map, List.flatMap_def]
      congr 2
      apply List.map_congr_left
      intro x hx
      obtain ⟨e1, v1⟩ := tmod_sub_valid (hv x hx) hval
      simp only [Function.comp]
      rw [glyphOf_valid v1, e1]
      congr 2
      omega
  refine ⟨mem_alphabet.mpr ⟨p, hp, rfl⟩, _, _, h1, new_replicate p m hp hm, ?_, ?_, ?_⟩
  · cases ht : textToIndices (removeSpaces T) with
    | none => rw [modAlpha_encrypt_none _ ht, modAlpha_encrypt_none _ ht]
    | some t => rw [(hshift m hm t ht).1, (hshift 1 (Nat.le_refl 1) t ht).1]
  · cases ht : textToIndices (removeSpaces T) with
    | none => rw [modAlpha_decrypt_none _ ht, modAlpha_decrypt_none _ ht]
    | some t => rw [(hshift m hm t ht).2, (hshift 1 (Nat.le_refl 1) t ht).2]
  · intro t ht
    rw [← removeSpaces_eq_filter] at ht
    exact hshift m hm t ht

/-- The test 3.2 of `src/main.cpp`: the key `"ААА"` encrypts `"ТЕКСТ"` as the key `"А"`
does, that is, leaves it unchanged (shift by index 0). -/
theorem C19_gronsfeld_repeated_key_witness :
    ∃ c1 c3, modAlphaCipher.new (str "А") = some c1 ∧ modAlphaCipher.new (str "ААА") = some c3
      ∧ c3.encrypt (str "ТЕКСТ") = c1.encrypt (str "ТЕКСТ")
      ∧ c3.encrypt (str "ТЕКСТ") = some (str "ТЕКСТ") := by
  obtain ⟨_, c1, c3, h1, h2, h3, _, h5⟩ := C19_gronsfeld_repeated_key 0 3 (str "ТЕКСТ")
    (by decide) (by decide)
  have e1 : glyphAt 0 = str "А" := by decide
  have e3 : (List.replicate 3 (glyphAt 0)).flatten = str "ААА" := by decide
  rw [e1] at h1
  rw [e3] at h2
  have h6 := (h5 [19, 5, 11, 18, 19] (by decide)).1
  exact ⟨c1, c3, h1, h2, h3, by rw [h6]; decide⟩

/-- C20. Spaces in a Gronsfeld key phrase are ignored. For every key phrase `K`,
constructing the cipher from `K` and from `K` with all its spaces removed has the same
outcome: both throw, or both succeed with the same key index sequence. The phrase
`"К Л Ю Ч"` is accepted and yields the very cipher of `"КЛЮЧ"`, so it encrypts and
decrypts every text as `"КЛЮЧ"` does. -/
theorem C20_gronsfeld_key_spaces (K T : List Nat) :
    modAlphaCipher.new K = modAlphaCipher.new (K.filter (fun b => decide (b ≠ 32)))
      ∧ ∃ c, modAlphaCipher.new (str "К Л Ю Ч") = some c
          ∧ modAlphaCipher.new (str "КЛЮЧ") = some c
          ∧ c.key = [11, 12, 31, 24]
          ∧ ∀ c2, modAlphaCipher.new (str "КЛЮЧ") = some c2 →
              c.encrypt T = c2.encrypt T ∧ c.decrypt T = c2.decrypt T := by
  refine ⟨new_congr (removeSpaces_filter K).symm, ⟨[11, 12, 31, 24]⟩, by decide, by decide, rfl,
    ?_⟩
  intro c2 hc2
  have h : modAlphaCipher.new (str "КЛЮЧ") = some ⟨[11, 12, 31, 24]⟩ := by decide
  rw [h] at hc2
  rw [← Option.some.inj hc2]
  exact ⟨rfl, rfl⟩

/-- The test 1.2 of `src/main.cpp`: under the key `"К Л Ю Ч"` the text `"ТЕСТ"` is
encrypted as under `"КЛЮЧ"`. -/
theorem C20_gronsfeld_key_spaces_witness :
    modAlphaCipher.new (str "К Л Ю Ч") = modAlphaCipher.new (str "КЛЮЧ") := by
  have h := (C20_gronsfeld_key_spaces (str "К Л Ю Ч") (str "ТЕСТ")).1
  rw [h]
  have e : (str "К Л Ю Ч").filter (fun b => decide (b ≠ 32)) = str "КЛЮЧ" := by decide
  rw [e]

/-- C23. The alphabet codec is a bijection. For every non-empty string `s` of alphabet
glyphs, `textToIndices s` succeeds and `indicesToText` of its result is `s`; for every
non-empty index sequence `v` of valid alphabet indices, `textToIndices (indicesToText v)`
succeeds with `v`. The alphabet has no duplicate glyph. -/
theorem C23_gronsfeld_codec_bijection (s : List Nat) (v : List Int)
    (hs : s ≠ [] ∧ IsGlyphConcat s)
    (hv : v ≠ [] ∧ ∀ idx ∈ v, 0 ≤ idx ∧ idx < ((numAlpha.length / 2 : Nat) : Int)) :
    (∃ w, textToIndices s = some w ∧ indicesToText w = s)
      ∧ textToIndices (indicesToText v) = some v
      ∧ alphabet.Nodup := by
  refine ⟨?_, ?_, by decide⟩
  · obtain ⟨w, hw⟩ := (textToIndices_isSome_iff s).mpr hs
    exact ⟨w, hw, (textToIndices_eq_some.mp hw).2.2⟩
  · rw [alphabetSize_eq] at hv
    exact textToIndices_eq_some.mpr ⟨hv.1, hv.2, rfl⟩

/-- The string `"АЁЯ"` is decoded to `[0, 6, 32]`, which is encoded back to `"АЁЯ"`. -/
theorem C23_gronsfeld_codec_bijection_witness :
    (∃ w, textToIndices (str "АЁЯ") = some w ∧ indicesToText w = str "АЁЯ")
      ∧ textToIndices (indicesToText [0, 6, 32]) = some [0, 6, 32] := by
  obtain ⟨h1, h2, _⟩ := C23_gronsfeld_codec_bijection (str "АЁЯ") [0, 6, 32]
    ⟨by decide, [str "А", str "Ё", str "Я"], by decide, by decide⟩ ⟨by decide, by decide⟩
  exact ⟨h1, h2⟩

/-- C24. In Gronsfeld `decrypt` the operand of the modulo is never negative. For every
accepted key and every valid ciphertext with index sequence `t`, at every position `i`
the value `t[i] - key[i mod keyLength] + alphabetSize` is non-negative, so the truncating
`%` of C++ yields the mathematical residue, which lies in `[0, alphabetSize)` and equals
`(t[i] - key[i mod keyLength])` modulo the alphabet size; the glyph of `decrypt` at
position `i` is the alphabet glyph of that index. -/
theorem C24_gronsfeld_decrypt_operand (skey T : List Nat) (c : modAlphaCipher)
    (t : List Int) (i : Nat) (hc : modAlphaCipher.new skey = some c)
    (ht : textToIndices (T.filter (fun b => decide (b ≠ 32))) = some t) (hi : i < t.length) :
    0 ≤ t.getD i 0 - c.key.getD (i % c.key.length) 0 + ((numAlpha.length / 2 : Nat) : Int)
      ∧ Int.tmod (t.getD i 0 - c.key.getD (i % c.key.length) 0
            + ((numAlpha.length / 2 : Nat) : Int)) ((numAlpha.length / 2 : Nat) : Int)
          = (t.getD i 0 - c.key.getD (i % c.key.length) 0) % ((numAlpha.length / 2 : Nat) : Int)
      ∧ 0 ≤ (t.getD i 0 - c.key.getD (i % c.key.length) 0) % ((numAlpha.length / 2 : Nat) : Int)
      ∧ (t.getD i 0 - c.key.getD (i % c.key.length) 0) % ((numAlpha.length / 2 : Nat) : Int)
          < ((numAlpha.length / 2 : Nat) : Int)
      ∧ ∃ D, c.decrypt T = some D
          ∧ substr D (2 * i) 2
              = glyphAt ((t.getD i 0 - c.key.getD (i % c.key.length) 0)
                  % ((numAlpha.length / 2 : Nat) : Int)).toNat := by
  obtain ⟨_, hk⟩ := key_valid hc
  rw [← removeSpaces_eq_filter] at ht
  obtain ⟨_, hv, _⟩ := textToIndices_eq_some.mp ht
  have hx := getD_valid hv hi
  have hkk := hk (i % c.key.length)
  obtain ⟨e1, v1⟩ := tmod_sub_valid hx hkk
  have e2 : (t.getD i 0 - c.key.getD (i % c.key.length) 0 + 33) % 33
      = (t.getD i 0 - c.key.getD (i % c.key.length) 0) % 33 := by omega
  have hw := decrypt_valid c hk t hv
  have hget : (t.mapIdx (fun i x => Int.tmod (x - c.key.getD (i % c.key.length) 0 + 33) 33)).getD
      i 0 = (t.getD i 0 - c.key.getD (i % c.key.length) 0) % 33 := by
    rw [List.getD_eq_getElem?_getD, List.getElem?_mapIdx, List.getElem?_eq_getElem hi]
    simp only [Option.map_some', Option.getD_some]
    rw [← List.getD_eq_getElem _ 0 hi, e1, e2]
  rw [alphabetSize_eq]
  rw [e1, e2] at v1
  refine ⟨?_, by rw [e1, e2], v1.1, v1.2, _, modAlpha_decrypt_eq c ht, ?_⟩
  · unfold ValidIdx at hx hkk; omega
  · rw [indicesToText_substr _ hw i (by rw [List.length_mapIdx]; exact hi), hget]

/-- With the key `"Я"` (index 32) the ciphertext `"АБ"` has at position 0 the operand
`0 - 32 + 33 = 1`, and `decrypt` yields there the glyph of index 1, `"Б"`. -/
theorem C24_gronsfeld_decrypt_operand_witness :
    ∃ D, (modAlphaCipher.mk [32]).decrypt (str "АБ") = some D ∧ substr D 0 2 = str "Б" := by
  obtain ⟨_, _, _, _, D, h1, h2⟩ := C24_gronsfeld_decrypt_operand (str "Я") (str "АБ") ⟨[32]⟩
    [0, 1] 0 (by decide) (by decide) (by decide)
  exact ⟨D, h1, by rw [h2]; decide⟩

/-- C27. Gronsfeld `decrypt` is also a right inverse. For every accepted key and every
text `C` that after removing the spaces is a non-empty concatenation of alphabet glyphs,
`decrypt C` succeeds, has the length of the cleaned `C`, and `encrypt` of it succeeds and
equals `C` with its spaces removed. -/
theorem C27_gronsfeld_right_inverse (skey C : List Nat) (c : modAlphaCipher)
    (hc : modAlphaCipher.new skey = some c)
    (hne : C.filter (fun b => decide (b ≠ 32)) ≠ [])
    (hC : IsGlyphConcat (C.filter (fun b => decide (b ≠ 32)))) :
    ∃ D, c.decrypt C = some D
      ∧ c.encrypt D = some (C.filter (fun b => decide (b ≠ 32)))
      ∧ D.length = (C.filter (fun b => decide (b ≠ 32))).length := by
  obtain ⟨t, ht⟩ := (textToIndices_isSome_iff _).mpr ⟨hne, hC⟩
  rw [← removeSpaces_eq_filter] at ht
  obtain ⟨D, h1, h2, h3⟩ := decrypt_encrypt_core hc ht
  rw [removeSpaces_eq_filter] at h2 h3
  exact ⟨D, h1, h2, h3⟩

/-- With the key `"КЛЮЧ"`, `encrypt(decrypt("ТЕ СТ"))` is `"ТЕСТ"`. -/
theorem C27_gronsfeld_right_inverse_witness :
    ∃ D, (modAlphaCipher.mk [11, 12, 31, 24]).decrypt (str "ТЕ СТ") = some D
      ∧ (modAlphaCipher.mk [11, 12, 31, 24]).encrypt D = some (str "ТЕСТ") := by
  obtain ⟨D, h1, h2, _⟩ := C27_gronsfeld_right_inverse (str "КЛЮЧ") (str "ТЕ СТ")
    ⟨[11, 12, 31, 24]⟩ (by decide) (by decide)
    ⟨[str "Т", str "Е", str "С", str "Т"], by decide, by decide⟩
  exact ⟨D, h1, by rw [h2]; decide⟩

/-- C28. Gronsfeld output never silently loses glyphs. For every accepted key the key
vector is non-empty, so `i % key.size()` has a non-zero divisor and is a position of the
key; for every valid text with index sequence `t`, every index that `encrypt` and
`decrypt` compute lies in `[0, alphabetSize)`, so `indicesToText` skips none, and both
outputs have exactly as many glyphs (and bytes) as the cleaned input. -/
theorem C28_gronsfeld_no_lost_glyph (skey T : List Nat) (c : modAlphaCipher) (t : List Int)
    (hc : modAlphaCipher.new skey = some c)
    (ht : textToIndices (T.filter (fun b => decide (b ≠ 32))) = some t) :
    1 ≤ c.key.length
      ∧ (∀ i : Nat, i % c.key.length < c.key.length)
      ∧ (∀ i, i < t.length →
          0 ≤ Int.tmod (t.getD i 0 + c.key.getD (i % c.key.length) 0)
                ((numAlpha.length / 2 : Nat) : Int)
          ∧ Int.tmod (t.getD i 0 + c.key.getD (i % c.key.length) 0)
                ((numAlpha.length / 2 : Nat) : Int) < ((numAlpha.length / 2 : Nat) : Int)
          ∧ 0 ≤ Int.tmod (t.getD i 0 - c.key.getD (i % c.key.length) 0
                  + ((numAlpha.length / 2 : Nat) : Int)) ((numAlpha.length / 2 : Nat) : Int)
          ∧ Int.tmod (t.getD i 0 - c.key.getD (i % c.key.length) 0
                  + ((numAlpha.length / 2 : Nat) : Int)) ((numAlpha.length / 2 : Nat) : Int)
              < ((numAlpha.length / 2 : Nat) : Int))
      ∧ ∃ E D, c.encrypt T = some E ∧ c.decrypt T = some D
          ∧ E.length = 2 * t.length ∧ D.length = 2 * t.length
          ∧ E.length = (T.filter (fun b => decide (b ≠ 32))).length
          ∧ D.length = (T.filter (fun b => decide (b ≠ 32))).length := by
  obtain ⟨hkne, hk⟩ := key_valid hc
  have hklen : 1 ≤ c.key.length := List.length_pos.mpr hkne
  rw [← removeSpaces_eq_filter] at ht ⊢
  obtain ⟨_, hv, _⟩ := textToIndices_eq_some.mp ht
  obtain ⟨E, D, h1, h2, h3, h4, h5⟩ := output_lengths hc ht
  rw [alphabetSize_eq]
  refine ⟨hklen, fun i => Nat.mod_lt _ (by omega), ?_, E, D, h1, h2, h3, h4, ?_, ?_⟩
  · intro i hi
    have hx := getD_valid hv hi
    have hkk := hk (i % c.key.length)
    have a := (tmod_add_valid hx hkk).2
    have b := (tmod_sub_valid hx hkk).2
    exact ⟨a.1, a.2, b.1, b.2⟩
  · rw [h3, h5]
  · rw [h4, h5]

/-- Under the key `"АБ"` the text `"ТЕ КСТ"` (five glyphs after cleaning) is encrypted and
decrypted to texts of ten bytes each. -/
theorem C28_gronsfeld_no_lost_glyph_witness :
    ∃ E D, (modAlphaCipher.mk [0, 1]).encrypt (str "ТЕ КСТ") = some E
      ∧ (modAlphaCipher.mk [0, 1]).decrypt (str "ТЕ КСТ") = some D
      ∧ E.length = 10 ∧ D.length = 10 := by
  obtain ⟨_, _, _, E, D, h1, h2, h3, h4, _⟩ := C28_gronsfeld_no_lost_glyph (str "АБ")
    (str "ТЕ КСТ") ⟨[0, 1]⟩ [19, 5, 11, 18, 19] (by decide) (by decide)
  exact ⟨E, D, h1, h2, h3, h4⟩

end Gronsfeld
